import Mathlib

/-!
# Linked-list queue of strings (`queue.c`)

A shallow embedding of `queue.c` and proofs about it.

Modelling conventions.

* A pointer to a list element is an `Option Nat`: `none` is `NULL`, `some a` is the
  address `a`.  The heap maps an address to the element stored there; an address that was
  never allocated, or that was freed, maps to `none`.
* A C string is the list of its characters before the terminating NUL; a character is the
  integer value of the C `char`, which is signed and 8 bits wide on the target: the byte
  `0x80` is the character `-128`.  The string owned by an element is stored in the element
  itself, and is released together with it.
* An operation that dereferences `NULL` or a freed address has no defined result: the
  embedding returns `none` there.  Loops take a `fuel` bound on the number of iterations and
  return `none` when it is exhausted.
* `malloc` is a parameter of the inserting operations: the address it returned (`none` when
  it failed).  `int` is 32 bits wide: the conversion of `strlen(s)` to `int` and the
  increment of `size` by the inserting operations are reduced to this range (`to_int`).
  `size_t` is 64 bits wide.
-/

namespace Queue

/-! ## Data model -/

/-- Linked list element `list_ele_t`: the string it owns and the `next` pointer. -/
structure list_ele_t where
  value : List Int
  next : Option Nat
deriving DecidableEq

/-- Queue structure `queue_t`. -/
structure queue_t where
  head : Option Nat
  tail : Option Nat
  size : Int
deriving DecidableEq

/-- Heap of list elements: the element stored at each live address. -/
abbrev Heap := Nat → Option list_ele_t

/-- Heap in which nothing is allocated. -/
def emptyHeap : Heap := fun _ => none

/-- Write of a whole element at address `a`. -/
def store (h : Heap) (a : Nat) (n : list_ele_t) : Heap :=
  fun x => if x = a then some n else h x

/-- Effect of `free(ptr->value); free(ptr);` for `ptr = a`. -/
def release (h : Heap) (a : Nat) : Heap :=
  fun x => if x = a then none else h x

/-- Caller memory seen from the pointer `sp`: the byte at each `size_t` offset. -/
abbrev Buffer := Nat → Int

/-- Number of values of `size_t`. -/
def SIZE_T_MOD : Nat := 2 ^ 64

/-- Library function `strncpy(dst, src, n)`: exactly `n` bytes are written, the characters of
`src` first and NUL bytes after them. -/
def strncpy (dst : Buffer) (src : List Int) (n : Nat) : Buffer :=
  fun i => if i < n then src.getD i 0 else dst i

/-- Assignment `sp[i] = c`. -/
def poke (sp : Buffer) (i : Nat) (c : Int) : Buffer :=
  fun j => if j = i then c else sp j

/-! ## Operations -/

/-- Function `q_new`; `alloc_ok` tells whether `malloc` succeeded. -/
def q_new (alloc_ok : Bool) : Option queue_t :=
  if alloc_ok then some { head := none, tail := none, size := 0 } else none

/-- Value in `int` of the exact integer `x`: the result of converting `x` to `int`, and of an
`int` operation whose exact result is `x` (two's complement, 32 bits). -/
def to_int (x : Int) : Int := (x + 2147483648) % 4294967296 - 2147483648

/-- String left in the buffer `in` of `strlen(s) + 1` bytes by
`int len = strlen(s); strncpy(in, s, len); in[len] = 0;`.  When `len` is negative `strncpy`
is asked to write `(size_t)len` bytes, more than the buffer holds, and `in[len]` lies before
the buffer: no defined result.  Otherwise the first `len` characters of `s` and a NUL are
stored, and `len <= strlen(s)`. -/
def copy_string (s : List Int) : Option (List Int) :=
  if to_int s.length < 0 then none else some (s.take (to_int s.length).toNat)

/-- Function `q_insert_head`.  `newh` is the result of the first `malloc`, `in_ok` tells
whether the second one (the string copy) succeeded.  Result: heap, queue, return value. -/
def q_insert_head (h : Heap) (q : Option queue_t) (s : List Int) (newh : Option Nat)
    (in_ok : Bool) : Option (Heap × Option queue_t × Bool) :=
  match q with
  | none => some (h, none, false)
  | some q =>
    match newh with
    | none => some (h, some q, false)
    | some a =>
      if !in_ok then some (h, some q, false)
      else
        match copy_string s with
        | none => none
        | some v =>
          let h1 := store h a { value := v, next := q.head }
          let q1 := { q with head := some a }
          let q2 := if q1.tail.isNone then { q1 with tail := q1.head } else q1
          some (h1, some { q2 with size := to_int (q2.size + 1) }, true)

/-- Function `q_insert_tail`.  `newt` is the result of the first `malloc`, `in_ok` tells
whether the second one succeeded.  Result: heap, queue, return value. -/
def q_insert_tail (h : Heap) (q : Option queue_t) (s : List Int) (newt : Option Nat)
    (in_ok : Bool) : Option (Heap × Option queue_t × Bool) :=
  match q with
  | none => some (h, none, false)
  | some q =>
    match newt with
    | none => some (h, some q, false)
    | some a =>
      if !in_ok then some (h, some q, false)
      else
        match copy_string s with
        | none => none
        | some v =>
          let h1 := store h a { value := v, next := none }
          match q.tail with
          | none =>
            some (h1,
              some { q with head := some a, tail := some a, size := to_int (q.size + 1) },
              true)
          | some t =>
            match h1 t with
            | none => none
            | some nt =>
              some (store h1 t { nt with next := some a },
                some { q with tail := some a, size := to_int (q.size + 1) }, true)

/-- Function `q_remove_head`.  `sp` is the caller memory at the pointer `sp` (`none` for a
`NULL` pointer), `bufsize` a `size_t`.  Result: heap, queue, caller memory, return value. -/
def q_remove_head (h : Heap) (q : Option queue_t) (sp : Option Buffer) (bufsize : Nat) :
    Option (Heap × Option queue_t × Option Buffer × Bool) :=
  match q with
  | none => some (h, none, sp, false)
  | some q =>
    match q.head with
    | none => some (h, some q, sp, false)
    | some a =>
      match h a with
      | none => none
      | some n =>
        let sp1 := sp.map fun b =>
          poke (strncpy b n.value bufsize) ((bufsize + SIZE_T_MOD - 1) % SIZE_T_MOD) 0
        some (release h a, some { q with head := n.next, size := q.size - 1 }, sp1, true)

/-- Function `q_size`. -/
def q_size (q : Option queue_t) : Int :=
  match q with
  | some q => q.size
  | none => 0

/-- Loop of `q_reverse`, from the state `(temp, middle)`; `last` is dead at the loop head. -/
def q_reverse_loop : Nat → Heap → Option Nat → Option Nat → Option Heap
  | _, h, none, _ => some h
  | 0, _, some _, _ => none
  | fuel + 1, h, some t, middle =>
    match h t with
    | none => none
    | some n => q_reverse_loop fuel (store h t { n with next := middle }) n.next (some t)

/-- Function `q_reverse`. -/
def q_reverse (fuel : Nat) (h : Heap) (q : Option queue_t) : Option (Heap × Option queue_t) :=
  match q with
  | none => some (h, none)
  | some q =>
    match q_reverse_loop fuel h q.head none with
    | none => none
    | some h1 => some (h1, some { q with head := q.tail, tail := q.head })

/-- Character loop of `less_than` on the two strings; the end of a list is the NUL. -/
def less_than_str : List Int → List Int → Bool
  | a :: l, b :: r => if a > b then false else if a < b then true else less_than_str l r
  | [], _ :: _ => true
  | _, [] => false

/-- Function `less_than`. -/
def less_than (l r : list_ele_t) : Bool := less_than_str l.value r.value

/-- First loop of `q_merge`, `while (l && r)`. -/
def q_merge_both : Nat → Heap → queue_t → Option Nat → Option Nat →
    Option (Heap × queue_t × Option Nat × Option Nat)
  | 0, h, q, l, r =>
    match l, r with
    | some _, some _ => none
    | _, _ => some (h, q, l, r)
  | fuel + 1, h, q, l, r =>
    match l, r with
    | some la, some ra =>
      match h la, h ra with
      | some nl, some nr =>
        let cur := if less_than nl nr then la else ra
        let l1 := if less_than nl nr then nl.next else some la
        let r1 := if less_than nl nr then some ra else nr.next
        match q.tail with
        | none => none
        | some t =>
          match h t with
          | none => none
          | some nt =>
            q_merge_both fuel (store h t { nt with next := some cur })
              { q with tail := some cur } l1 r1
      | _, _ => none
    | _, _ => some (h, q, l, r)

/-- Trailing loops of `q_merge`, `while (l)` and `while (r)`; they have the same body. -/
def q_merge_rest : Nat → Heap → queue_t → Option Nat → Option (Heap × queue_t)
  | _, h, q, none => some (h, q)
  | 0, _, _, some _ => none
  | fuel + 1, h, q, some a =>
    match q.tail with
    | none => none
    | some t =>
      match h t with
      | none => none
      | some nt =>
        let h1 := store h t { nt with next := some a }
        match h1 a with
        | none => none
        | some na => q_merge_rest fuel h1 { q with tail := some a } na.next

/-- Function `q_merge`. -/
def q_merge (fuel : Nat) (h : Heap) (left right q : queue_t) : Option (Heap × queue_t) :=
  match left.head, right.head with
  | some la, some ra =>
    match h la, h ra with
    | some nl, some nr =>
      let q1 : queue_t := { q with head := if less_than nl nr then some la else some ra }
      let l := if less_than nl nr then nl.next else some la
      let r := if less_than nl nr then some ra else nr.next
      let q2 := { q1 with tail := q1.head }
      match q_merge_both fuel h q2 l r with
      | none => none
      | some (h1, q3, l1, r1) =>
        match q_merge_rest fuel h1 q3 l1 with
        | none => none
        | some (h2, q4) => q_merge_rest fuel h2 q4 r1
    | _, _ => none
  | _, _ => none

/-- The `for` loop of `q_sort`: `n` times `ptr = ptr->next`. -/
def q_sort_walk : Nat → Heap → Option Nat → Option (Option Nat)
  | 0, _, p => some p
  | n + 1, h, p =>
    match p with
    | none => none
    | some a =>
      match h a with
      | none => none
      | some nd => q_sort_walk n h nd.next

/-- Function `q_sort`; `fuel` bounds the recursion depth and the loops of `q_merge`. -/
def q_sort : Nat → Heap → Option queue_t → Option (Heap × Option queue_t)
  | _, h, none => some (h, none)
  | 0, h, some q => if q.size < 2 then some (h, some q) else none
  | fuel + 1, h, some q =>
    if q.size < 2 then some (h, some q)
    else
      let left_size : Int := q.size / 2 + q.size % 2
      let right_size : Int := q.size / 2
      match q_sort_walk (left_size - 1).toNat h q.head with
      | some (some p) =>
        match h p with
        | none => none
        | some np =>
          let left : queue_t := { head := q.head, tail := some p, size := left_size }
          let right : queue_t := { head := np.next, tail := q.tail, size := right_size }
          let h1 := store h p { np with next := none }
          let q1 : queue_t := { q with head := none, tail := none }
          match q_sort fuel h1 (some left) with
          | some (h2, some left1) =>
            match q_sort fuel h2 (some right) with
            | some (h3, some right1) =>
              match q_merge (fuel + 1) h3 left1 right1 q1 with
              | none => none
              | some (h4, q2) => some (h4, some q2)
            | _ => none
          | _ => none
      | _ => none

/-! ## Specification vocabulary -/

/-- List segment: following `next` from the pointer `p` visits exactly the addresses `as`,
all of them live, and then arrives at the pointer `t`. -/
def lseg (h : Heap) : Option Nat → List Nat → Option Nat → Prop
  | p, [], t => p = t
  | p, a :: as, t => p = some a ∧ ∃ n, h a = some n ∧ lseg h n.next as t

/-- Well-formed queue whose elements are, from head to tail, at the addresses `addrs`:
following `next` from `head` visits `addrs` and ends in `NULL` (so the list has no cycle),
`tail` is the last of them (`NULL` when there is none), and `size` is their number. -/
structure well_formed (h : Heap) (q : queue_t) (addrs : List Nat) : Prop where
  reach : lseg h q.head addrs none
  tail_last : q.tail = addrs.getLast?
  size_count : q.size = addrs.length

/-- String of the element at address `a`. -/
def value_at (h : Heap) (a : Nat) : List Int :=
  match h a with
  | some n => n.value
  | none => []

/-- Strings of the elements at the addresses `addrs`, in that order. -/
def values (h : Heap) (addrs : List Nat) : List (List Int) := addrs.map (value_at h)

/-- Comparison `less_than` of the elements at two addresses. -/
def lt_at (h : Heap) (a b : Nat) : Bool := less_than_str (value_at h a) (value_at h b)

/-- Both heaps have the same live addresses and the same string at each of them. -/
def same_values (h h1 : Heap) : Prop :=
  ∀ x, (h1 x).map list_ele_t.value = (h x).map list_ele_t.value

/-- The heaps agree outside the addresses `S`. -/
def frame (S : List Nat) (h h1 : Heap) : Prop := ∀ x, x ∉ S → h1 x = h x

/-- Order in which `q_merge` emits the elements of its two operands: the head of the left
one when `lt` holds of the two heads, the head of the right one otherwise. -/
def mergeSpec {α : Type} (lt : α → α → Bool) : List α → List α → List α
  | [], r => r
  | a :: l, [] => a :: l
  | a :: l, b :: r =>
    if lt a b then a :: mergeSpec lt l (b :: r) else b :: mergeSpec lt (a :: l) r
termination_by l r => l.length + r.length

/-- Order in which `q_sort` leaves the elements: split after the first `⌈n/2⌉`, sort both
parts, merge. -/
def sortSpec {α : Type} (lt : α → α → Bool) : Nat → List α → List α
  | 0, xs => xs
  | fuel + 1, xs =>
    if xs.length < 2 then xs
    else
      mergeSpec lt (sortSpec lt fuel (xs.take (xs.length / 2 + xs.length % 2)))
        (sortSpec lt fuel (xs.drop (xs.length / 2 + xs.length % 2)))

/-- Non-decreasing sequence of strings: `less_than(b, a)` is false for every adjacent pair
`(a, b)`. -/
def nondecreasing (vs : List (List Int)) : Prop :=
  List.Chain' (fun a b => less_than_str b a = false) vs

/-- Characters of a string literal. -/
def cstr (s : String) : List Int := s.toList.map fun c => (c.toNat : Int)

/-- Strings met when following `next` from `p` until `NULL`, in at most `fuel` steps. -/
def q_values : Nat → Heap → Option Nat → Option (List (List Int))
  | _, _, none => some []
  | 0, _, some _ => none
  | fuel + 1, h, some a =>
    match h a with
    | none => none
    | some n => (q_values fuel h n.next).map (n.value :: ·)

/-- Decision procedure for `lseg`. -/
instance lseg_decidable (h : Heap) :
    ∀ (as : List Nat) (p t : Option Nat), Decidable (lseg h p as t)
  | [], p, t => inferInstanceAs (Decidable (p = t))
  | a :: as, p, t =>
    match e : h a with
    | none => isFalse (fun hs => by obtain ⟨_, n, hn, _⟩ := hs; rw [e] at hn; cases hn)
    | some n =>
      match lseg_decidable h as n.next t with
      | isTrue hr =>
        if hp : p = some a then isTrue ⟨hp, n, e, hr⟩ else isFalse (fun hs => hp hs.1)
      | isFalse hr =>
        isFalse (fun hs => by
          obtain ⟨_, m, hm, hs⟩ := hs
          rw [e] at hm; cases hm; exact hr hs)

/-- Decision procedure for `well_formed`. -/
instance well_formed_decidable (h : Heap) (q : queue_t) (addrs : List Nat) :
    Decidable (well_formed h q addrs) :=
  decidable_of_iff
    (lseg h q.head addrs none ∧ q.tail = addrs.getLast? ∧ q.size = addrs.length)
    ⟨fun ⟨a, b, c⟩ => ⟨a, b, c⟩, fun ⟨a, b, c⟩ => ⟨a, b, c⟩⟩

/-! ## Concrete queues -/

/-- Heap after `q_insert_tail` of "banana" (element at address 1) into a new queue. -/
def fruit_h1 : Heap := store emptyHeap 1 { value := cstr "banana", next := none }

/-- Queue after `q_insert_tail` of "banana". -/
def fruit_q1 : queue_t := { head := some 1, tail := some 1, size := 1 }

/-- Heap after the further `q_insert_tail` of "apple" (element at address 2). -/
def fruit_h2 : Heap :=
  store (store fruit_h1 2 { value := cstr "apple", next := none }) 1
    { value := cstr "banana", next := some 2 }

/-- Queue after the further `q_insert_tail` of "apple". -/
def fruit_q2 : queue_t := { head := some 1, tail := some 2, size := 2 }

/-- Heap after the further `q_insert_tail` of "cherry" (element at address 3). -/
def fruit_h3 : Heap :=
  store (store fruit_h2 3 { value := cstr "cherry", next := none }) 2
    { value := cstr "apple", next := some 3 }

/-- Queue after the further `q_insert_tail` of "cherry". -/
def fruit_q3 : queue_t := { head := some 1, tail := some 3, size := 3 }

/-- Heap after `q_insert_head` of "hello" (element at address 1) into a new queue. -/
def hello_h : Heap := store emptyHeap 1 { value := cstr "hello", next := none }

/-- Queue after `q_insert_head` of "hello" into a new queue. -/
def hello_q : queue_t := { head := some 1, tail := some 1, size := 1 }

/-- Caller memory filled with the byte 85. -/
def filled_buffer : Buffer := fun _ => 85

/-- Strings reachable from the head of the queue of a state, `none` when the state is
undefined or the queue pointer is `NULL`. -/
def state_values (fuel : Nat) (r : Option (Heap × Option queue_t)) :
    Option (List (List Int)) :=
  r.bind fun s => s.2.bind fun q => q_values fuel s.1 q.head

/-- State after `q_new`, `q_insert_head` of "a" (element at address 1) and `q_remove_head`
without output buffer. -/
def emptied : Option (Heap × Option queue_t × Option Buffer × Bool) :=
  (q_insert_head emptyHeap (q_new true) (cstr "a") (some 1) true).bind fun s =>
    q_remove_head s.1 s.2.1 none 0

/-- State after the further `q_insert_tail` of "b", `malloc` returning the address `a`. -/
def emptied_then_insert_tail (a : Nat) : Option (Heap × Option queue_t × Bool) :=
  emptied.bind fun s => q_insert_tail s.1 s.2.1 (cstr "b") (some a) true

/-! ## Vocabulary for the comparison and for the split -/

/-- Strict lexicographic order on strings, in the words of the specification: at the first
position where the strings differ the character of the first is the smaller one, or the
first string ends there while the second goes on (a proper prefix is less than any string it
prefixes); equal strings are not related. -/
def lex_less : List Int → List Int → Prop
  | [], [] => False
  | [], _ :: _ => True
  | _ :: _, [] => False
  | a :: l, b :: r => a < b ∨ (a = b ∧ lex_less l r)

/-- The split of `q_sort`, from `left.head = q->head` to `q->tail = q->head = NULL`: the heap
after `left.tail->next = NULL` and the records `left` and `right`. -/
def q_sort_split (h : Heap) (q : queue_t) : Option (Heap × queue_t × queue_t) :=
  let left_size : Int := q.size / 2 + q.size % 2
  let right_size : Int := q.size / 2
  match q_sort_walk (left_size - 1).toNat h q.head with
  | some (some p) =>
    match h p with
    | none => none
    | some np =>
      some (store h p { np with next := none },
        { head := q.head, tail := some p, size := left_size },
        { head := np.next, tail := q.tail, size := right_size })
  | _ => none

/-- The part of `q_sort` after the split: both recursive calls and the call of `q_merge`. -/
def q_sort_conquer (fuel : Nat) (q : queue_t) (s : Heap × queue_t × queue_t) :
    Option (Heap × Option queue_t) :=
  match q_sort fuel s.1 (some s.2.1) with
  | some (h2, some left1) =>
    match q_sort fuel h2 (some s.2.2) with
    | some (h3, some right1) =>
      match q_merge (fuel + 1) h3 left1 right1 { q with head := none, tail := none } with
      | none => none
      | some (h4, q2) => some (h4, some q2)
    | _ => none
  | _ => none

/-- Heap with the sorted list "pear", "plum" at the addresses 1, 3 and the one-element list
"pear" at the address 2. -/
def tie_heap : Heap := fun x =>
  if x = 1 then some { value := cstr "pear", next := some 3 }
  else if x = 2 then some { value := cstr "pear", next := none }
  else if x = 3 then some { value := cstr "plum", next := none }
  else none

/-- Sub-queue "pear", "plum" of `tie_heap`. -/
def tie_left : queue_t := { head := some 1, tail := some 3, size := 2 }

/-- Sub-queue "pear" of `tie_heap`. -/
def tie_right : queue_t := { head := some 2, tail := some 2, size := 1 }

/-- Output queue record handed to `q_merge`, as cleared by `q_sort`. -/
def tie_out : queue_t := { head := none, tail := none, size := 3 }

/-! ## Vocabulary for the limits of `int` and for bytes -/

/-- Byte that holds the character `c` in memory: its value as an `unsigned char`. -/
def byte_of_char (c : Int) : Int := c % 256

/-- Decision procedure for `lex_less`. -/
instance lex_less_decidable : ∀ a b : List Int, Decidable (lex_less a b)
  | [], [] => inferInstanceAs (Decidable False)
  | [], _ :: _ => inferInstanceAs (Decidable True)
  | _ :: _, [] => inferInstanceAs (Decidable False)
  | a :: l, b :: r =>
    have := lex_less_decidable l r
    inferInstanceAs (Decidable (a < b ∨ (a = b ∧ lex_less l r)))

/-- Byte-wise lexicographic order on strings, in the words of the specification: the order
`lex_less` of the sequences of bytes of the two strings. -/
def bytewise_less (a b : List Int) : Prop :=
  lex_less (a.map byte_of_char) (b.map byte_of_char)

/-- Decision procedure for `bytewise_less`. -/
instance bytewise_less_decidable (a b : List Int) : Decidable (bytewise_less a b) :=
  lex_less_decidable _ _

/-! ## Heap and list-segment lemmas -/

theorem store_same (h : Heap) (a : Nat) (n : list_ele_t) : store h a n a = some n := by
  simp [store]

theorem store_other (h : Heap) (a x : Nat) (n : list_ele_t) (hx : x ≠ a) :
    store h a n x = h x := by
  simp [store, hx]

theorem lseg_head {h : Heap} {p : Option Nat} {as : List Nat} (hs : lseg h p as none) :
    p = as.head? := by
  cases as with
  | nil => simpa [lseg] using hs
  | cons a as => simpa [lseg] using hs.1

theorem lseg_congr {h h1 : Heap} {as : List Nat} (hf : ∀ x ∈ as, h1 x = h x) :
    ∀ {p t : Option Nat}, lseg h p as t → lseg h1 p as t := by
  induction as with
  | nil => intro p t hs; simpa [lseg] using hs
  | cons a as ih =>
    intro p t hs
    obtain ⟨hp, n, hn, hrest⟩ := hs
    refine ⟨hp, n, ?_, ih (fun x hx => hf x (List.mem_cons_of_mem _ hx)) hrest⟩
    rw [hf a (List.mem_cons_self _ _)]; exact hn

theorem lseg_append {h : Heap} {as bs : List Nat} :
    ∀ {p t : Option Nat}, lseg h p (as ++ bs) t ↔ ∃ m, lseg h p as m ∧ lseg h m bs t := by
  induction as with
  | nil =>
    intro p t
    constructor
    · intro hs; exact ⟨p, rfl, hs⟩
    · rintro ⟨m, hm, hs⟩
      have : p = m := hm
      subst this; exact hs
  | cons a as ih =>
    intro p t
    constructor
    · rintro ⟨hp, n, hn, hrest⟩
      obtain ⟨m, h1, h2⟩ := ih.mp hrest
      exact ⟨m, ⟨hp, n, hn, h1⟩, h2⟩
    · rintro ⟨m, ⟨hp, n, hn, h1⟩, h2⟩
      exact ⟨hp, n, hn, ih.mpr ⟨m, h1, h2⟩⟩

theorem lseg_det {h : Heap} {as : List Nat} :
    ∀ {bs : List Nat} {p : Option Nat}, lseg h p as none → lseg h p bs none → as = bs := by
  induction as with
  | nil =>
    intro bs p h1 h2
    have hp : p = none := h1
    subst hp
    cases bs with
    | nil => rfl
    | cons b bs => exact absurd h2.1 (by simp)
  | cons a as ih =>
    intro bs p h1 h2
    obtain ⟨hp, n, hn, hrest⟩ := h1
    subst hp
    cases bs with
    | nil => exact absurd (show some a = none from h2) (by simp)
    | cons b bs =>
      obtain ⟨hb, m, hm, hrest2⟩ := h2
      have hab : a = b := by simpa using hb
      subst hab
      have hnm : n = m := by rw [hn] at hm; simpa using hm
      subst hnm
      rw [ih hrest hrest2]

theorem lseg_not_mem {h : Heap} {a : Nat} {n : list_ele_t} {as : List Nat} (hn : h a = some n)
    (hs : lseg h n.next as none) : a ∉ as := by
  intro hmem
  obtain ⟨xs, ys, rfl⟩ := List.append_of_mem hmem
  obtain ⟨m, _, h2⟩ := lseg_append.mp hs
  obtain ⟨_, n1, hn1, h3⟩ := h2
  have hnn : n = n1 := by rw [hn] at hn1; simpa using hn1
  subst hnn
  have := lseg_det hs h3
  have hl := congrArg List.length this
  simp at hl
  omega

theorem lseg_nodup {h : Heap} {as : List Nat} :
    ∀ {p : Option Nat}, lseg h p as none → as.Nodup := by
  induction as with
  | nil => intro p _; exact List.nodup_nil
  | cons a as ih =>
    intro p hs
    obtain ⟨_, n, hn, hrest⟩ := hs
    exact List.nodup_cons.mpr ⟨lseg_not_mem hn hrest, ih hrest⟩

theorem lseg_next_eq {h h1 : Heap} {as : List Nat} :
    ∀ {p : Option Nat}, lseg h p as none → lseg h1 p as none →
      ∀ a ∈ as, ∀ n n1, h a = some n → h1 a = some n1 → n.next = n1.next := by
  induction as with
  | nil => intro p _ _ a ha; simp at ha
  | cons b as ih =>
    intro p hs hs1 a ha n n1 hn hn1
    obtain ⟨_, m, hm, hrest⟩ := hs
    obtain ⟨_, m1, hm1, hrest1⟩ := hs1
    have e := lseg_head hrest
    have e1 := lseg_head hrest1
    rcases List.mem_cons.mp ha with rfl | hmem
    · rw [hn] at hm; rw [hn1] at hm1
      cases hm; cases hm1
      rw [e, e1]
    · rw [e] at hrest; rw [e1] at hrest1
      exact ih hrest hrest1 a hmem n n1 hn hn1

theorem same_values_refl (h : Heap) : same_values h h := fun _ => rfl

theorem same_values_trans {h h1 h2 : Heap} (a : same_values h h1) (b : same_values h1 h2) :
    same_values h h2 := fun x => (b x).trans (a x)

theorem same_values_store {h : Heap} {a : Nat} {n : list_ele_t} (hn : h a = some n)
    (p : Option Nat) : same_values h (store h a { n with next := p }) := by
  intro x
  by_cases hx : x = a
  · subst hx; simp [store, hn]
  · simp [store, hx]

theorem value_at_eq {h h1 : Heap} (hv : same_values h h1) (a : Nat) :
    value_at h1 a = value_at h a := by
  have := hv a
  unfold value_at
  cases e : h a <;> cases e1 : h1 a <;> simp_all

theorem values_eq {h h1 : Heap} (hv : same_values h h1) (as : List Nat) :
    values h1 as = values h as := by
  unfold values
  exact List.map_congr_left (fun a _ => value_at_eq hv a)

theorem lt_at_eq {h h1 : Heap} (hv : same_values h h1) : lt_at h1 = lt_at h := by
  funext a b
  simp [lt_at, value_at_eq hv]

/-! ## `q_reverse` -/

theorem q_reverse_loop_spec (rest : List Nat) :
    ∀ (fuel : Nat) (h : Heap) (temp middle : Option Nat) (done : List Nat),
      lseg h temp rest none → lseg h middle done none → (∀ x ∈ rest, x ∉ done) →
      rest.length ≤ fuel →
      ∃ h1, q_reverse_loop fuel h temp middle = some h1 ∧
        lseg h1 (rest.reverse ++ done).head? (rest.reverse ++ done) none ∧
        frame rest h h1 ∧ same_values h h1 := by
  induction rest with
  | nil =>
    intro fuel h temp middle done hs hd _ _
    have ht : temp = none := hs
    subst ht
    refine ⟨h, ?_, ?_, fun _ _ => rfl, same_values_refl h⟩
    · cases fuel <;> simp [q_reverse_loop]
    · have := lseg_head hd
      simpa [← this] using hd
  | cons a rest ih =>
    intro fuel h temp middle done hs hd hdisj hfuel
    obtain ⟨hp, n, hn, hrest⟩ := hs
    subst hp
    obtain ⟨fuel, rfl⟩ : ∃ f, fuel = f + 1 := ⟨fuel - 1, by simp at hfuel; omega⟩
    have ha_rest : a ∉ rest := lseg_not_mem hn hrest
    have ha_done : a ∉ done := hdisj a (List.mem_cons_self _ _)
    have hrest1 : lseg (store h a { n with next := middle }) n.next rest none :=
      lseg_congr (fun x hx => store_other h a x _ (fun e => ha_rest (e ▸ hx))) hrest
    have hdone1 : lseg (store h a { n with next := middle }) (some a) (a :: done) none :=
      ⟨rfl, _, store_same h a _,
        lseg_congr (fun x hx => store_other h a x _ (fun e => ha_done (e ▸ hx))) hd⟩
    obtain ⟨h1, hrun, hseg, hfr, hval⟩ :=
      ih fuel _ n.next (some a) (a :: done) hrest1 hdone1
        (fun x hx => by
          intro hmem
          rcases List.mem_cons.mp hmem with rfl | hmem
          · exact ha_rest hx
          · exact hdisj x (List.mem_cons_of_mem _ hx) hmem)
        (by simp at hfuel; omega)
    refine ⟨h1, ?_, ?_, ?_, ?_⟩
    · simp [q_reverse_loop, hn, hrun]
    · simpa using hseg
    · intro x hx
      have hxa : x ≠ a := fun e => hx (e ▸ List.mem_cons_self _ _)
      rw [hfr x (fun hmem => hx (List.mem_cons_of_mem _ hmem)), store_other h a x _ hxa]
    · exact same_values_trans (same_values_store hn middle) hval

theorem q_reverse_spec {h : Heap} {q : queue_t} {addrs : List Nat} (hw : well_formed h q addrs)
    {fuel : Nat} (hfuel : addrs.length ≤ fuel) :
    ∃ h1, q_reverse fuel h (some q) =
        some (h1, some { q with head := q.tail, tail := q.head }) ∧
      well_formed h1 { q with head := q.tail, tail := q.head } addrs.reverse ∧
      frame addrs h h1 ∧ same_values h h1 := by
  obtain ⟨h1, hrun, hseg, hfr, hval⟩ :=
    q_reverse_loop_spec addrs fuel h q.head none [] hw.reach rfl (fun _ _ => by simp) hfuel
  refine ⟨h1, ?_, ⟨?_, ?_, ?_⟩, hfr, hval⟩
  · simp [q_reverse, hrun]
  · simp only [List.append_nil] at hseg
    rw [List.head?_reverse] at hseg
    simpa [hw.tail_last] using hseg
  · simp [List.getLast?_reverse, lseg_head hw.reach]
  · simpa using hw.size_count

/-! ## The order decided by `less_than` -/

theorem less_than_str_iff_lex (a : List Int) :
    ∀ b : List Int, less_than_str a b = true ↔ List.Lex (· < ·) a b := by
  induction a with
  | nil =>
    intro b
    cases b with
    | nil => simp [less_than_str]
    | cons y r => simp [less_than_str, List.Lex.nil]
  | cons x l ih =>
    intro b
    cases b with
    | nil => simp [less_than_str]
    | cons y r =>
      rcases lt_trichotomy x y with hxy | hxy | hxy
      · have : ¬ x > y := not_lt.mpr hxy.le
        simp [less_than_str, this, hxy, List.Lex.rel hxy]
      · subst hxy
        simp [less_than_str, ih r, List.Lex.cons_iff]
      · have hn : ¬ x < y := not_lt.mpr hxy.le
        have hne : x ≠ y := ne_of_gt hxy
        simp only [less_than_str, gt_iff_lt, hxy, if_true]
        constructor
        · intro hf; cases hf
        · intro hl
          cases hl with
          | cons _ => exact absurd rfl hne
          | rel hr => exact absurd hr hn

theorem less_than_str_iff_lt (a b : List Int) : less_than_str a b = true ↔ a < b :=
  less_than_str_iff_lex a b

theorem less_than_str_false_iff (a b : List Int) : less_than_str a b = false ↔ b ≤ a := by
  rw [← not_lt, ← less_than_str_iff_lt]
  simp

theorem less_than_str_asymm (a b : List Int) (hab : less_than_str a b = true) :
    less_than_str b a = false := by
  rw [less_than_str_false_iff]
  exact le_of_lt ((less_than_str_iff_lt a b).mp hab)

theorem less_than_str_trans (a b c : List Int) (hba : less_than_str b a = false)
    (hcb : less_than_str c b = false) : less_than_str c a = false := by
  rw [less_than_str_false_iff] at *
  exact le_trans hba hcb

theorem lt_at_asymm (h : Heap) (a b : Nat) (hab : lt_at h a b = true) : lt_at h b a = false :=
  less_than_str_asymm _ _ hab

theorem lt_at_trans (h : Heap) (a b c : Nat) (hba : lt_at h b a = false)
    (hcb : lt_at h c b = false) : lt_at h c a = false :=
  less_than_str_trans _ _ _ hba hcb

/-! ## The merge and sort orders -/

section Order

variable {α : Type} (lt : α → α → Bool)

theorem mergeSpec_nil_right (l : List α) : mergeSpec lt l [] = l := by
  cases l <;> simp [mergeSpec]

theorem mergeSpec_perm : ∀ l r : List α, List.Perm (mergeSpec lt l r) (l ++ r)
  | [], r => by simp [mergeSpec]
  | a :: l, [] => by simp [mergeSpec]
  | a :: l, b :: r => by
    rw [mergeSpec]
    split
    · exact (mergeSpec_perm l (b :: r)).cons a
    · have h1 := (mergeSpec_perm (a :: l) r).cons b
      refine h1.trans ?_
      simpa using (@List.perm_middle _ b (a :: l) r).symm
termination_by l r => l.length + r.length

theorem mem_mergeSpec {x : α} {l r : List α} : x ∈ mergeSpec lt l r ↔ x ∈ l ∨ x ∈ r := by
  rw [(mergeSpec_perm lt l r).mem_iff, List.mem_append]

theorem mergeSpec_sorted (hasymm : ∀ a b, lt a b = true → lt b a = false)
    (htrans : ∀ a b c, lt b a = false → lt c b = false → lt c a = false) :
    ∀ l r : List α, l.Pairwise (fun a b => lt b a = false) →
      r.Pairwise (fun a b => lt b a = false) →
      (mergeSpec lt l r).Pairwise (fun a b => lt b a = false)
  | [], r, _, hr => by simpa [mergeSpec] using hr
  | a :: l, [], hl, _ => by simpa [mergeSpec] using hl
  | a :: l, b :: r, hl, hr => by
    rw [mergeSpec]
    split
    · rename_i hab
      refine List.Pairwise.cons ?_ (mergeSpec_sorted hasymm htrans l (b :: r) hl.tail hr)
      intro z hz
      rcases (mem_mergeSpec lt).mp hz with hz | hz
      · exact List.rel_of_pairwise_cons hl hz
      · rcases List.mem_cons.mp hz with rfl | hz
        · exact hasymm _ _ hab
        · exact htrans _ _ _ (hasymm _ _ hab) (List.rel_of_pairwise_cons hr hz)
    · rename_i hab
      have hab : lt a b = false := by simpa using hab
      refine List.Pairwise.cons ?_ (mergeSpec_sorted hasymm htrans (a :: l) r hl hr.tail)
      intro z hz
      rcases (mem_mergeSpec lt).mp hz with hz | hz
      · rcases List.mem_cons.mp hz with rfl | hz
        · exact hab
        · exact htrans _ _ _ hab (List.rel_of_pairwise_cons hl hz)
      · exact List.rel_of_pairwise_cons hr hz
termination_by l r => l.length + r.length

theorem sortSpec_perm : ∀ (fuel : Nat) (xs : List α), List.Perm (sortSpec lt fuel xs) xs
  | 0, xs => by simp [sortSpec]
  | fuel + 1, xs => by
    rw [sortSpec]
    split
    · exact List.Perm.refl _
    · refine (mergeSpec_perm lt _ _).trans ?_
      refine ((sortSpec_perm fuel _).append (sortSpec_perm fuel _)).trans ?_
      rw [List.take_append_drop]

theorem sortSpec_length (fuel : Nat) (xs : List α) : (sortSpec lt fuel xs).length = xs.length :=
  (sortSpec_perm lt fuel xs).length_eq

theorem sortSpec_sorted (hasymm : ∀ a b, lt a b = true → lt b a = false)
    (htrans : ∀ a b c, lt b a = false → lt c b = false → lt c a = false) :
    ∀ (fuel : Nat) (xs : List α), xs.length ≤ fuel →
      (sortSpec lt fuel xs).Pairwise (fun a b => lt b a = false)
  | 0, xs, hlen => by
    have : xs = [] := List.length_eq_zero.mp (Nat.le_zero.mp hlen)
    subst this
    simp [sortSpec]
  | fuel + 1, xs, hlen => by
    rw [sortSpec]
    split
    · rename_i hlt
      match xs, hlt with
      | [], _ => exact List.Pairwise.nil
      | [x], _ => exact List.pairwise_singleton _ _
      | _ :: _ :: _, hlt => exact absurd hlt (by simp)
    · rename_i hge
      refine mergeSpec_sorted lt hasymm htrans _ _
        (sortSpec_sorted hasymm htrans fuel _ ?_) (sortSpec_sorted hasymm htrans fuel _ ?_)
      · rw [List.length_take]; omega
      · rw [List.length_drop]; omega

end Order

/-! ## `q_merge` -/

theorem value_at_of_some {h : Heap} {a : Nat} {n : list_ele_t} (hn : h a = some n) :
    value_at h a = n.value := by
  simp [value_at, hn]

theorem less_than_eq_lt_at {h : Heap} {a b : Nat} {na nb : list_ele_t} (ha : h a = some na)
    (hb : h b = some nb) : less_than na nb = lt_at h a b := by
  simp [less_than, lt_at, value_at_of_some ha, value_at_of_some hb]

theorem q_merge_rest_none (fuel : Nat) (h : Heap) (q : queue_t) :
    q_merge_rest fuel h q none = some (h, q) := by
  cases fuel <;> simp [q_merge_rest]

theorem q_merge_rest_spec (L : List Nat) :
    ∀ (fuel : Nat) (h : Heap) (q : queue_t) (t : Nat) (nt : list_ele_t) (l : Option Nat),
      q.tail = some t → h t = some nt → lseg h l L none → t ∉ L → L.length ≤ fuel →
      (L = [] → nt.next = none) →
      ∃ h1 q1, q_merge_rest fuel h q l = some (h1, q1) ∧
        lseg h1 (some t) (t :: L) none ∧ q1.head = q.head ∧ q1.size = q.size ∧
        q1.tail = (t :: L).getLast? ∧ frame (t :: L) h h1 ∧ same_values h h1 := by
  induction L with
  | nil =>
    intro fuel h q t nt l hq ht hs _ _ hnext
    have hl : l = none := hs
    subst hl
    refine ⟨h, q, q_merge_rest_none fuel h q, ⟨rfl, nt, ht, hnext rfl⟩, rfl, rfl, ?_,
      fun _ _ => rfl, same_values_refl h⟩
    simpa using hq
  | cons a L ih =>
    intro fuel h q t nt l hq ht hs htL hfuel _
    obtain ⟨hl, na, hna, hrest⟩ := hs
    subst hl
    obtain ⟨fuel, rfl⟩ : ∃ f, fuel = f + 1 := ⟨fuel - 1, by simp at hfuel; omega⟩
    have hta : t ≠ a := fun e => htL (e ▸ List.mem_cons_self _ _)
    have haL : a ∉ L := lseg_not_mem hna hrest
    have htL1 : t ∉ L := fun hm => htL (List.mem_cons_of_mem _ hm)
    have hna1 : store h t { nt with next := some a } a = some na := by
      rw [store_other h t a _ (Ne.symm hta)]; exact hna
    have hrest1 : lseg (store h t { nt with next := some a }) na.next L none :=
      lseg_congr (fun x hx => store_other h t x _ (fun e => htL1 (e ▸ hx))) hrest
    obtain ⟨h1, q1, hrun, hseg, hhead, hsize, htail, hfr, hval⟩ :=
      ih fuel _ { q with tail := some a } a na na.next rfl hna1 hrest1 haL
        (by simp at hfuel; omega)
        (fun e => by subst e; exact hrest)
    refine ⟨h1, q1, ?_, ?_, hhead, hsize, ?_, ?_, ?_⟩
    · simp [q_merge_rest, hq, ht, hna1, hrun]
    · refine ⟨rfl, { nt with next := some a }, ?_, hseg⟩
      rw [hfr t (by simp [hta, htL1]), store_same]
    · rw [htail]; simp [List.getLast?_cons_cons]
    · intro x hx
      have hxt : x ≠ t := fun e => hx (e ▸ List.mem_cons_self _ _)
      rw [hfr x (fun hm => hx (List.mem_cons_of_mem _ hm)), store_other h t x _ hxt]
    · exact same_values_trans (same_values_store ht (some a)) hval

theorem q_merge_both_none_left (fuel : Nat) (h : Heap) (q : queue_t) (r : Option Nat) :
    q_merge_both fuel h q none r = some (h, q, none, r) := by
  cases fuel <;> simp [q_merge_both]

theorem q_merge_both_none_right (fuel : Nat) (h : Heap) (q : queue_t) (l : Option Nat) :
    q_merge_both fuel h q l none = some (h, q, l, none) := by
  cases fuel <;> cases l <;> simp [q_merge_both]

theorem q_merge_loops_spec :
    ∀ (f1 f2 f3 : Nat) (h : Heap) (q : queue_t) (t : Nat) (nt : list_ele_t)
      (l r : Option Nat) (L R : List Nat),
      q.tail = some t → h t = some nt → lseg h l L none → lseg h r R none →
      t ∉ L → t ∉ R → (∀ x ∈ L, x ∉ R) →
      L.length + R.length ≤ f1 → L.length ≤ f2 → R.length ≤ f3 →
      (L = [] → R = [] → nt.next = none) →
      ∃ h1 q1 l1 r1 h2 q2 h3 q3,
        q_merge_both f1 h q l r = some (h1, q1, l1, r1) ∧
        q_merge_rest f2 h1 q1 l1 = some (h2, q2) ∧
        q_merge_rest f3 h2 q2 r1 = some (h3, q3) ∧
        lseg h3 (some t) (t :: mergeSpec (lt_at h) L R) none ∧
        q3.head = q.head ∧ q3.size = q.size ∧
        q3.tail = (t :: mergeSpec (lt_at h) L R).getLast? ∧
        frame (t :: (L ++ R)) h h3 ∧ same_values h h3 := by
  intro f1
  induction f1 with
  | zero =>
    intro f2 f3 h q t nt l r L R hq ht hl hr htL htR _ hf1 _ hf3 hnext
    have hL : L = [] := List.length_eq_zero.mp (by omega)
    have hR : R = [] := List.length_eq_zero.mp (by omega)
    subst hL; subst hR
    have el : l = none := hl
    have er : r = none := hr
    subst el; subst er
    refine ⟨h, q, none, none, h, q, h, q, q_merge_both_none_left _ _ _ _,
      q_merge_rest_none _ _ _, q_merge_rest_none _ _ _, ?_, rfl, rfl, ?_, fun _ _ => rfl,
      same_values_refl h⟩
    · exact ⟨rfl, nt, ht, by simpa [mergeSpec] using hnext rfl rfl⟩
    · simpa [mergeSpec] using hq
  | succ f1 ih =>
    intro f2 f3 h q t nt l r L R hq ht hl hr htL htR hdisj hf1 hf2 hf3 hnext
    cases L with
    | nil =>
      have el : l = none := hl
      subst el
      obtain ⟨h3, q3, hrun, hseg, hhead, hsize, htail, hfr, hval⟩ :=
        q_merge_rest_spec R f3 h q t nt r hq ht hr htR hf3 (hnext rfl)
      refine ⟨h, q, none, r, h, q, h3, q3, q_merge_both_none_left _ _ _ _,
        q_merge_rest_none _ _ _, hrun, ?_, hhead, hsize, ?_, ?_, hval⟩
      · simpa [mergeSpec] using hseg
      · simpa [mergeSpec] using htail
      · simpa using hfr
    | cons a L1 =>
      cases R with
      | nil =>
        have er : r = none := hr
        subst er
        obtain ⟨h2, q2, hrun, hseg, hhead, hsize, htail, hfr, hval⟩ :=
          q_merge_rest_spec (a :: L1) f2 h q t nt l hq ht hl htL hf2 (fun e => by simp at e)
        refine ⟨h, q, l, none, h2, q2, h2, q2, q_merge_both_none_right _ _ _ _, hrun,
          q_merge_rest_none _ _ _, ?_, hhead, hsize, ?_, ?_, hval⟩
        · simpa [mergeSpec] using hseg
        · simpa [mergeSpec] using htail
        · simpa using hfr
      | cons b R1 =>
        obtain ⟨el, na, hna, hlrest⟩ := hl
        obtain ⟨er, nb, hnb, hrrest⟩ := hr
        subst el; subst er
        have hta : t ≠ a := fun e => htL (e ▸ List.mem_cons_self _ _)
        have htb : t ≠ b := fun e => htR (e ▸ List.mem_cons_self _ _)
        have htL1 : t ∉ L1 := fun hm => htL (List.mem_cons_of_mem _ hm)
        have htR1 : t ∉ R1 := fun hm => htR (List.mem_cons_of_mem _ hm)
        have haL1 : a ∉ L1 := lseg_not_mem hna hlrest
        have hbR1 : b ∉ R1 := lseg_not_mem hnb hrrest
        have hab : a ≠ b := fun e => hdisj a (List.mem_cons_self _ _) (e ▸ List.mem_cons_self _ _)
        have hlt := less_than_eq_lt_at hna hnb
        by_cases hc : lt_at h a b = true
        · -- the left head is emitted
          have hframe : ∀ x, x ≠ t → store h t { nt with next := some a } x = h x :=
            fun x hx => store_other h t x _ hx
          obtain ⟨h1, q1, l1, r1, h2, q2, h3, q3, e1, e2, e3, hseg, hhead, hsize, htail, hfr,
              hval⟩ :=
            ih f2 f3 (store h t { nt with next := some a }) { q with tail := some a } a na
              na.next (some b) L1 (b :: R1) rfl
              (by rw [hframe a (Ne.symm hta)]; exact hna)
              (lseg_congr (fun x hx => hframe x (fun e => htL1 (e ▸ hx))) hlrest)
              (lseg_congr (fun x hx => hframe x (fun e => htR (e ▸ hx)))
                (show lseg h (some b) (b :: R1) none from ⟨rfl, nb, hnb, hrrest⟩))
              haL1 (fun hm => hdisj a (List.mem_cons_self _ _) hm)
              (fun x hx => hdisj x (List.mem_cons_of_mem _ hx))
              (by simp at hf1 ⊢; omega) (by simp at hf2; omega) hf3
              (fun _ e => by simp at e)
          have hv0 := same_values_store ht (some a)
          rw [lt_at_eq hv0] at hseg htail
          have hm : mergeSpec (lt_at h) (a :: L1) (b :: R1) =
              a :: mergeSpec (lt_at h) L1 (b :: R1) := by
            rw [mergeSpec]; simp [hc]
          refine ⟨h1, q1, l1, r1, h2, q2, h3, q3, ?_, e2, e3, ?_, hhead, hsize, ?_, ?_,
            same_values_trans hv0 hval⟩
          · simp [q_merge_both, hna, hnb, hlt, hc, hq, ht, e1]
          · rw [hm]
            refine ⟨rfl, { nt with next := some a }, ?_, hseg⟩
            rw [hfr t (by simp [hta, htb, htL1, htR1]), store_same]
          · rw [hm, htail]; simp [List.getLast?_cons_cons]
          · intro x hx
            have hxt : x ≠ t := fun e => hx (e ▸ List.mem_cons_self _ _)
            have hx1 : x ∉ a :: (L1 ++ b :: R1) := fun hmem =>
              hx (List.mem_cons_of_mem _ (by simpa using hmem))
            rw [hfr x hx1, hframe x hxt]
        · -- the right head is emitted
          have hc : lt_at h a b = false := by simpa using hc
          have hframe : ∀ x, x ≠ t → store h t { nt with next := some b } x = h x :=
            fun x hx => store_other h t x _ hx
          obtain ⟨h1, q1, l1, r1, h2, q2, h3, q3, e1, e2, e3, hseg, hhead, hsize, htail, hfr,
              hval⟩ :=
            ih f2 f3 (store h t { nt with next := some b }) { q with tail := some b } b nb
              (some a) nb.next (a :: L1) R1 rfl
              (by rw [hframe b (Ne.symm htb)]; exact hnb)
              (lseg_congr (fun x hx => hframe x (fun e => htL (e ▸ hx)))
                (show lseg h (some a) (a :: L1) none from ⟨rfl, na, hna, hlrest⟩))
              (lseg_congr (fun x hx => hframe x (fun e => htR1 (e ▸ hx))) hrrest)
              (fun hm => hdisj b hm (List.mem_cons_self _ _)) hbR1
              (fun x hx hm => hdisj x hx (List.mem_cons_of_mem _ hm))
              (by simp at hf1 ⊢; omega) hf2 (by simp at hf3; omega)
              (fun e _ => by simp at e)
          have hv0 := same_values_store ht (some b)
          rw [lt_at_eq hv0] at hseg htail
          have hm : mergeSpec (lt_at h) (a :: L1) (b :: R1) =
              b :: mergeSpec (lt_at h) (a :: L1) R1 := by
            rw [mergeSpec]; simp [hc]
          refine ⟨h1, q1, l1, r1, h2, q2, h3, q3, ?_, e2, e3, ?_, hhead, hsize, ?_, ?_,
            same_values_trans hv0 hval⟩
          · simp [q_merge_both, hna, hnb, hlt, hc, hq, ht, e1]
          · rw [hm]
            refine ⟨rfl, { nt with next := some b }, ?_, hseg⟩
            rw [hfr t (by simp [hta, htb, htL1, htR1]), store_same]
          · rw [hm, htail]; simp [List.getLast?_cons_cons]
          · intro x hx
            have hxt : x ≠ t := fun e => hx (e ▸ List.mem_cons_self _ _)
            have hx1 : x ∉ b :: (a :: L1 ++ R1) := fun hmem =>
              hx (List.mem_cons_of_mem _ (by
                simp only [List.mem_cons, List.mem_append] at hmem ⊢; tauto))
            rw [hfr x hx1, hframe x hxt]

theorem q_merge_spec {h : Heap} {left right q : queue_t} {L R : List Nat} {fuel : Nat}
    (hl : lseg h left.head L none) (hr : lseg h right.head R none) (hL : L ≠ [])
    (hR : R ≠ []) (hdisj : ∀ x ∈ L, x ∉ R) (hfuel : L.length + R.length ≤ fuel + 1) :
    ∃ h1 q1, q_merge fuel h left right q = some (h1, q1) ∧
      lseg h1 q1.head (mergeSpec (lt_at h) L R) none ∧
      q1.tail = (mergeSpec (lt_at h) L R).getLast? ∧ q1.size = q.size ∧
      frame (L ++ R) h h1 ∧ same_values h h1 := by
  obtain ⟨a, L1, rfl⟩ := List.exists_cons_of_ne_nil hL
  obtain ⟨b, R1, rfl⟩ := List.exists_cons_of_ne_nil hR
  obtain ⟨el, na, hna, hlrest⟩ := hl
  obtain ⟨er, nb, hnb, hrrest⟩ := hr
  have haL1 : a ∉ L1 := lseg_not_mem hna hlrest
  have hbR1 : b ∉ R1 := lseg_not_mem hnb hrrest
  have hlt := less_than_eq_lt_at hna hnb
  by_cases hc : lt_at h a b = true
  · obtain ⟨h1, q1, l1, r1, h2, q2, h3, q3, e1, e2, e3, hseg, hhead, hsize, htail, hfr, hval⟩ :=
      q_merge_loops_spec fuel fuel fuel h { q with head := some a, tail := some a } a na
        na.next (some b) L1 (b :: R1) rfl hna hlrest ⟨rfl, nb, hnb, hrrest⟩ haL1
        (fun hm => hdisj a (List.mem_cons_self _ _) hm)
        (fun x hx => hdisj x (List.mem_cons_of_mem _ hx))
        (by simp at hfuel ⊢; omega) (by simp at hfuel; omega) (by simp at hfuel ⊢; omega)
        (fun _ e => by simp at e)
    have hm : mergeSpec (lt_at h) (a :: L1) (b :: R1) =
        a :: mergeSpec (lt_at h) L1 (b :: R1) := by
      rw [mergeSpec]; simp [hc]
    refine ⟨h3, q3, ?_, ?_, ?_, hsize, ?_, hval⟩
    · simp [q_merge, el, er, hna, hnb, hlt, hc, e1, e2, e3]
    · rw [hm, hhead]; exact hseg
    · rw [hm, htail]
    · intro x hx
      exact hfr x (by simpa using hx)
  · have hc : lt_at h a b = false := by simpa using hc
    obtain ⟨h1, q1, l1, r1, h2, q2, h3, q3, e1, e2, e3, hseg, hhead, hsize, htail, hfr, hval⟩ :=
      q_merge_loops_spec fuel fuel fuel h { q with head := some b, tail := some b } b nb
        (some a) nb.next (a :: L1) R1 rfl hnb ⟨rfl, na, hna, hlrest⟩ hrrest
        (fun hm => hdisj b hm (List.mem_cons_self _ _)) hbR1
        (fun x hx hm => hdisj x hx (List.mem_cons_of_mem _ hm))
        (by simp at hfuel ⊢; omega) (by simp at hfuel ⊢; omega) (by simp at hfuel; omega)
        (fun e _ => by simp at e)
    have hm : mergeSpec (lt_at h) (a :: L1) (b :: R1) =
        b :: mergeSpec (lt_at h) (a :: L1) R1 := by
      rw [mergeSpec]; simp [hc]
    refine ⟨h3, q3, ?_, ?_, ?_, hsize, ?_, hval⟩
    · simp [q_merge, el, er, hna, hnb, hlt, hc, e1, e2, e3]
    · rw [hm, hhead]; exact hseg
    · rw [hm, htail]
    · intro x hx
      refine hfr x (fun hmem => hx ?_)
      simp only [List.mem_cons, List.mem_append] at hmem ⊢
      tauto

/-! ## `q_sort` -/

theorem q_sort_walk_spec {h : Heap} (as : List Nat) :
    ∀ {p m : Option Nat}, lseg h p as m → q_sort_walk as.length h p = some m := by
  induction as with
  | nil => intro p m hs; simp [q_sort_walk, show p = m from hs]
  | cons a as ih =>
    intro p m hs
    obtain ⟨hp, n, hn, hrest⟩ := hs
    subst hp
    simp [q_sort_walk, hn, ih hrest]

theorem mem_sortSpec {α : Type} (lt : α → α → Bool) (fuel : Nat) (xs : List α) (x : α) :
    x ∈ sortSpec lt fuel xs ↔ x ∈ xs :=
  (sortSpec_perm lt fuel xs).mem_iff

theorem q_sort_spec :
    ∀ (fuel : Nat) (h : Heap) (q : queue_t) (addrs : List Nat),
      well_formed h q addrs → addrs.length ≤ fuel →
      ∃ h1 q1, q_sort fuel h (some q) = some (h1, some q1) ∧
        well_formed h1 q1 (sortSpec (lt_at h) fuel addrs) ∧ q1.size = q.size ∧
        frame addrs h h1 ∧ same_values h h1 := by
  intro fuel
  induction fuel with
  | zero =>
    intro h q addrs hw hlen
    have e : addrs = [] := List.length_eq_zero.mp (Nat.le_zero.mp hlen)
    subst e
    have hsz : q.size = 0 := by simpa using hw.size_count
    exact ⟨h, q, by simp [q_sort, hsz], by simpa [sortSpec] using hw, rfl, fun _ _ => rfl,
      same_values_refl h⟩
  | succ fuel ih =>
    intro h q addrs hw hlen
    have hsize := hw.size_count
    by_cases hsmall : addrs.length < 2
    · have hsz : q.size < 2 := by rw [hsize]; omega
      refine ⟨h, q, by simp [q_sort, hsz], ?_, rfl, fun _ _ => rfl, same_values_refl h⟩
      rw [sortSpec, if_pos hsmall]
      exact hw
    · have hsz : ¬ q.size < 2 := by rw [hsize]; omega
      have hk1 : 1 ≤ addrs.length / 2 + addrs.length % 2 := by omega
      have hkn : addrs.length / 2 + addrs.length % 2 < addrs.length := by omega
      generalize hk : addrs.length / 2 + addrs.length % 2 = k at hk1 hkn
      have hTlen : (addrs.take k).length = k := by rw [List.length_take]; omega
      have hDlen : (addrs.drop k).length = addrs.length - k := List.length_drop _ _
      have hTne : addrs.take k ≠ [] := by
        intro e; rw [e] at hTlen; simp at hTlen; omega
      have hDne : addrs.drop k ≠ [] := by
        intro e; rw [e] at hDlen; simp at hDlen; omega
      obtain ⟨init, pa, hT⟩ : ∃ init pa, addrs.take k = init ++ [pa] :=
        ⟨_, _, (List.dropLast_append_getLast hTne).symm⟩
      have hinit : init.length = k - 1 := by
        have := congrArg List.length hT
        simp [hTlen] at this; omega
      have hsplit : addrs = init ++ pa :: addrs.drop k := by
        conv_lhs => rw [← List.take_append_drop k addrs, hT]
        simp
      have hnodup : addrs.Nodup := lseg_nodup hw.reach
      have hreach := hw.reach
      rw [hsplit] at hreach hnodup
      obtain ⟨m, hseg_init, hseg_rest⟩ := lseg_append.mp hreach
      obtain ⟨em, np, hnp, hseg_D⟩ := hseg_rest
      subst em
      have hpa_init : pa ∉ init := by
        intro hm
        have := (List.nodup_append.mp hnodup).2.2
        exact this hm (List.mem_cons_self _ _)
      have hpa_D : pa ∉ addrs.drop k := lseg_not_mem hnp hseg_D
      have hTD : ∀ x ∈ addrs.take k, x ∉ addrs.drop k := by
        intro x hx hxD
        rw [hT] at hx
        rcases List.mem_append.mp hx with hx | hx
        · exact (List.nodup_append.mp hnodup).2.2 hx (List.mem_cons_of_mem _ hxD)
        · simp at hx; subst hx; exact hpa_D hxD
      -- the walk of the `for` loop
      have hwalk : q_sort_walk (q.size / 2 + q.size % 2 - 1).toNat h q.head = some (some pa) := by
        have e : (q.size / 2 + q.size % 2 - 1).toNat = init.length := by
          rw [hsize, hinit]; omega
        rw [e]
        exact q_sort_walk_spec init hseg_init
      -- the two sub-queues after the split
      have hstore : ∀ x, x ≠ pa → store h pa { np with next := none } x = h x :=
        fun x hx => store_other h pa x _ hx
      have hwl : well_formed (store h pa { np with next := none })
          { head := q.head, tail := some pa, size := q.size / 2 + q.size % 2 }
          (addrs.take k) := by
        refine ⟨?_, ?_, ?_⟩
        · rw [hT]
          refine lseg_append.mpr ⟨some pa, ?_, rfl, _, store_same h pa _, rfl⟩
          exact lseg_congr (fun x hx => hstore x (fun e => hpa_init (e ▸ hx))) hseg_init
        · rw [hT]; simp
        · show q.size / 2 + q.size % 2 = ((addrs.take k).length : Int)
          rw [hTlen, hsize, ← hk]; omega
      have hwr : well_formed (store h pa { np with next := none })
          { head := np.next, tail := q.tail, size := q.size / 2 } (addrs.drop k) := by
        refine ⟨?_, ?_, ?_⟩
        · exact lseg_congr (fun x hx => hstore x (fun e => hpa_D (e ▸ hx))) hseg_D
        · show q.tail = (addrs.drop k).getLast?
          rw [hw.tail_last]
          conv_lhs => rw [← List.take_append_drop k addrs]
          rw [List.getLast?_append_of_ne_nil _ hDne]
        · show q.size / 2 = ((addrs.drop k).length : Int)
          rw [hDlen, hsize]; omega
      have hv0 : same_values h (store h pa { np with next := none }) :=
        same_values_store hnp none
      -- recursive calls
      obtain ⟨h2, left1, erunl, hwl2, _, hfrl, hvl⟩ :=
        ih _ _ _ hwl (by rw [hTlen]; omega)
      have hwr2 : well_formed h2 { head := np.next, tail := q.tail, size := q.size / 2 }
          (addrs.drop k) :=
        ⟨lseg_congr (fun x hx => hfrl x (fun hm => hTD x hm hx)) hwr.reach, hwr.tail_last,
          hwr.size_count⟩
      obtain ⟨h3, right1, erunr, hwr3, _, hfrr, hvr⟩ :=
        ih _ _ _ hwr2 (by rw [hDlen]; omega)
      have hv1 : same_values h (store h pa { np with next := none }) := hv0
      have hv2 : same_values h h2 := same_values_trans hv1 hvl
      have hv3 : same_values h h3 := same_values_trans hv2 hvr
      rw [lt_at_eq hv1] at hwl2
      rw [lt_at_eq hv2] at hwr3
      have hl3 : lseg h3 left1.head (sortSpec (lt_at h) fuel (addrs.take k)) none :=
        lseg_congr (fun x hx => hfrr x (fun hm =>
          hTD x ((mem_sortSpec _ _ _ _).mp hx) hm)) hwl2.reach
      -- merge
      obtain ⟨h4, q2, erunm, hsegm, htailm, hsizem, hfrm, hvm⟩ :=
        @q_merge_spec h3 left1 right1 { q with head := none, tail := none } _ _ (fuel + 1)
          hl3 hwr3.reach
          (by intro e; have := congrArg List.length e
              rw [sortSpec_length, hTlen] at this; simp at this; omega)
          (by intro e; have := congrArg List.length e
              rw [sortSpec_length, hDlen] at this; simp at this; omega)
          (fun x hx hm => hTD x ((mem_sortSpec _ _ _ _).mp hx) ((mem_sortSpec _ _ _ _).mp hm))
          (by rw [sortSpec_length, sortSpec_length, hTlen, hDlen]; omega)
      rw [lt_at_eq hv3] at hsegm htailm
      have hres : sortSpec (lt_at h) (fuel + 1) addrs =
          mergeSpec (lt_at h) (sortSpec (lt_at h) fuel (addrs.take k))
            (sortSpec (lt_at h) fuel (addrs.drop k)) := by
        rw [sortSpec, if_neg hsmall, hk]
      refine ⟨h4, q2, ?_, ⟨?_, ?_, ?_⟩, hsizem, ?_, same_values_trans hv3 hvm⟩
      · rw [q_sort, if_neg hsz]
        simp only [hwalk, hnp, erunl, erunr, erunm]
      · rw [hres]; exact hsegm
      · rw [hres]; exact htailm
      · rw [hsizem, sortSpec_length]; exact hsize
      · intro x hx
        have hxT : x ∉ addrs.take k := fun hm => hx (List.mem_of_mem_take hm)
        have hxD : x ∉ addrs.drop k := fun hm => hx (List.mem_of_mem_drop hm)
        have hxpa : x ≠ pa := by
          intro e; apply hxT; rw [hT, e]; simp
        rw [hfrm x (by
            simp only [List.mem_append, mem_sortSpec]
            tauto),
          hfrr x hxD, hfrl x hxT, hstore x hxpa]

/-! ## Further facts on well-formed queues -/

theorem lseg_live {h : Heap} {as : List Nat} :
    ∀ {p t : Option Nat}, lseg h p as t → ∀ x ∈ as, ∃ n, h x = some n := by
  induction as with
  | nil => intro p t _ x hx; simp at hx
  | cons a as ih =>
    intro p t hs x hx
    obtain ⟨_, n, hn, hrest⟩ := hs
    rcases List.mem_cons.mp hx with rfl | hx
    · exact ⟨n, hn⟩
    · exact ih hrest x hx

theorem q_values_spec {h : Heap} (as : List Nat) :
    ∀ {p : Option Nat} {fuel : Nat}, lseg h p as none → as.length ≤ fuel →
      q_values fuel h p = some (values h as) := by
  induction as with
  | nil =>
    intro p fuel hs _
    have : p = none := hs
    subst this
    cases fuel <;> simp [q_values, values]
  | cons a as ih =>
    intro p fuel hs hfuel
    obtain ⟨hp, n, hn, hrest⟩ := hs
    subst hp
    obtain ⟨fuel, rfl⟩ : ∃ f, fuel = f + 1 := ⟨fuel - 1, by simp at hfuel; omega⟩
    have := ih hrest (show as.length ≤ fuel by simp at hfuel; omega)
    simp [q_values, hn, this, values, value_at_of_some hn]

theorem well_formed_tail {h : Heap} {q : queue_t} {as : List Nat} (hw : well_formed h q as)
    (hne : as ≠ []) :
    ∃ t n, q.tail = some t ∧ h t = some n ∧ n.next = none ∧
      q_sort_walk (as.length - 1) h q.head = some (some t) := by
  have hsplit := (List.dropLast_append_getLast hne).symm
  generalize as.dropLast = init at hsplit
  generalize as.getLast hne = t at hsplit
  have hreach := hw.reach
  have htail := hw.tail_last
  rw [hsplit] at hreach htail
  obtain ⟨m, hinit, hlast⟩ := lseg_append.mp hreach
  obtain ⟨em, n, hn, hend⟩ := hlast
  subst em
  refine ⟨t, n, by simpa using htail, hn, hend, ?_⟩
  have hl : as.length - 1 = init.length := by rw [hsplit]; simp
  rw [hl]
  exact q_sort_walk_spec init hinit

theorem nondecreasing_of_sorted {h h1 : Heap} (hv : same_values h h1) {as : List Nat}
    (hs : as.Pairwise (fun a b => lt_at h b a = false)) : nondecreasing (values h1 as) := by
  rw [values_eq hv]
  unfold nondecreasing values
  apply List.Pairwise.chain'
  rw [List.pairwise_map]
  exact hs

theorem q_reverse_twice {h : Heap} {q : queue_t} {addrs : List Nat}
    (hw : well_formed h q addrs) {fuel : Nat} (hfuel : addrs.length ≤ fuel) :
    ∃ h1 q1, q_reverse fuel h (some q) = some (h1, some q1) ∧
      well_formed h1 q1 addrs.reverse ∧ q_reverse fuel h1 (some q1) = some (h, some q) := by
  obtain ⟨h1, hrun1, hw1, hfr1, hv1⟩ := q_reverse_spec hw hfuel
  obtain ⟨h2, hrun2, hw2, hfr2, hv2⟩ := q_reverse_spec hw1 (by simpa using hfuel)
  refine ⟨h1, _, hrun1, hw1, ?_⟩
  rw [hrun2]
  have hq : ({ ({ q with head := q.tail, tail := q.head } : queue_t) with
      head := q.head, tail := q.tail } : queue_t) = q := by cases q; rfl
  have hh : h2 = h := by
    funext x
    by_cases hx : x ∈ addrs
    · have hreach2 : lseg h2 q.head addrs none := by simpa using hw2.reach
      obtain ⟨n, hn⟩ := lseg_live hw.reach x hx
      obtain ⟨n2, hn2⟩ := lseg_live hreach2 x hx
      have hnext := lseg_next_eq hw.reach hreach2 x hx n n2 hn hn2
      have hval := same_values_trans hv1 hv2 x
      rw [hn, hn2] at hval
      rw [hn, hn2]
      cases n; cases n2
      simp at hval hnext
      simp [hval, hnext]
    · rw [hfr2 x (by simpa using hx), hfr1 x hx]
  simp [hh, hq]

/-! ## Properties of `q_sort` -/

/-- C1: for every well-formed queue, `q_sort` (with fuel at least the number of elements)
returns, the queue is again well formed, and the strings met from `head` are in
non-decreasing order: `less_than(b, a)` is false for every adjacent pair `(a, b)`. -/
theorem q_sort_nondecreasing (h : Heap) (q : queue_t) (addrs : List Nat) (fuel : Nat)
    (hw : well_formed h q addrs) (hfuel : addrs.length ≤ fuel) :
    ∃ h1 q1 addrs1, q_sort fuel h (some q) = some (h1, some q1) ∧
      well_formed h1 q1 addrs1 ∧
      q_values fuel h1 q1.head = some (values h1 addrs1) ∧
      nondecreasing (values h1 addrs1) := by
  obtain ⟨h1, q1, hrun, hw1, _, _, hv⟩ := q_sort_spec fuel h q addrs hw hfuel
  refine ⟨h1, q1, _, hrun, hw1, ?_, ?_⟩
  · exact q_values_spec _ hw1.reach (by rw [sortSpec_length]; exact hfuel)
  · exact nondecreasing_of_sorted hv
      (sortSpec_sorted _ (lt_at_asymm h) (lt_at_trans h) fuel addrs hfuel)

/-- Witness of C1: "banana", "apple", "cherry" inserted with `q_insert_tail` into a new queue
and sorted give "apple", "banana", "cherry". -/
theorem q_sort_nondecreasing_witness :
    q_insert_tail emptyHeap (q_new true) (cstr "banana") (some 1) true
        = some (fruit_h1, some fruit_q1, true) ∧
    q_insert_tail fruit_h1 (some fruit_q1) (cstr "apple") (some 2) true
        = some (fruit_h2, some fruit_q2, true) ∧
    q_insert_tail fruit_h2 (some fruit_q2) (cstr "cherry") (some 3) true
        = some (fruit_h3, some fruit_q3, true) ∧
    well_formed fruit_h3 fruit_q3 [1, 2, 3] ∧
    state_values 3 (q_sort 3 fruit_h3 (some fruit_q3))
        = some [cstr "apple", cstr "banana", cstr "cherry"] ∧
    ∃ h1 q1 addrs1, q_sort 3 fruit_h3 (some fruit_q3) = some (h1, some q1) ∧
      well_formed h1 q1 addrs1 ∧
      q_values 3 h1 q1.head = some (values h1 addrs1) ∧
      nondecreasing (values h1 addrs1) :=
  ⟨rfl, rfl, rfl, by decide, by decide,
    q_sort_nondecreasing fruit_h3 fruit_q3 [1, 2, 3] 3 (by decide) (by decide)⟩

/-- C2: for every well-formed queue, `q_sort` returns a well-formed queue whose elements are
a permutation of the elements before (the same addresses, none lost and none twice), every
element keeps its string, so the strings met from `head` are a permutation of those before,
and `size` is unchanged. -/
theorem q_sort_permutation (h : Heap) (q : queue_t) (addrs : List Nat) (fuel : Nat)
    (hw : well_formed h q addrs) (hfuel : addrs.length ≤ fuel) :
    ∃ h1 q1 addrs1, q_sort fuel h (some q) = some (h1, some q1) ∧
      well_formed h1 q1 addrs1 ∧
      List.Perm addrs1 addrs ∧ addrs1.Nodup ∧
      (∀ a, value_at h1 a = value_at h a) ∧
      List.Perm (values h1 addrs1) (values h addrs) ∧
      q1.size = q.size ∧ q1.size = addrs1.length := by
  obtain ⟨h1, q1, hrun, hw1, hsize, _, hv⟩ := q_sort_spec fuel h q addrs hw hfuel
  have hperm := sortSpec_perm (lt_at h) fuel addrs
  refine ⟨h1, q1, _, hrun, hw1, hperm, lseg_nodup hw1.reach, value_at_eq hv, ?_, hsize,
    hw1.size_count⟩
  rw [values_eq hv]
  exact hperm.map _

/-- Witness of C2 on the queue "banana", "apple", "cherry". -/
theorem q_sort_permutation_witness :
    well_formed fruit_h3 fruit_q3 [1, 2, 3] ∧
    ∃ h1 q1 addrs1, q_sort 3 fruit_h3 (some fruit_q3) = some (h1, some q1) ∧
      well_formed h1 q1 addrs1 ∧
      List.Perm addrs1 [1, 2, 3] ∧ addrs1.Nodup ∧
      (∀ a, value_at h1 a = value_at fruit_h3 a) ∧
      List.Perm (values h1 addrs1) (values fruit_h3 [1, 2, 3]) ∧
      q1.size = fruit_q3.size ∧ q1.size = addrs1.length :=
  ⟨by decide, q_sort_permutation fruit_h3 fruit_q3 [1, 2, 3] 3 (by decide) (by decide)⟩

/-- C5: for every well-formed queue with at least two elements, after `q_sort` the queue
holds the merged result: `head` is the first element of the sorted sequence, following
`next` from `head` exactly `size - 1` times arrives at `tail`, the `next` of `tail` is
`NULL`, and no element occurs twice on the way (the list has no cycle). -/
theorem q_sort_writes_back (h : Heap) (q : queue_t) (addrs : List Nat) (fuel : Nat)
    (hw : well_formed h q addrs) (hsize : 2 ≤ q.size) (hfuel : addrs.length ≤ fuel) :
    ∃ h1 q1 addrs1 t nt, q_sort fuel h (some q) = some (h1, some q1) ∧
      lseg h1 q1.head addrs1 none ∧ addrs1.Nodup ∧
      nondecreasing (values h1 addrs1) ∧
      q1.head = addrs1.head? ∧ q1.head ≠ none ∧
      q1.size = q.size ∧ q1.size = addrs1.length ∧
      q_sort_walk (q1.size - 1).toNat h1 q1.head = some (some t) ∧
      q1.tail = some t ∧ h1 t = some nt ∧ nt.next = none := by
  obtain ⟨h1, q1, hrun, hw1, hsz, _, hv⟩ := q_sort_spec fuel h q addrs hw hfuel
  have hlen : (sortSpec (lt_at h) fuel addrs).length = addrs.length := sortSpec_length _ _ _
  have hcount := hw.size_count
  have hne : sortSpec (lt_at h) fuel addrs ≠ [] := by
    intro e; rw [e] at hlen; simp at hlen; omega
  obtain ⟨t, nt, htail, hnt, hnext, hwalk⟩ := well_formed_tail hw1 hne
  have hhead := lseg_head hw1.reach
  refine ⟨h1, q1, _, t, nt, hrun, hw1.reach, lseg_nodup hw1.reach,
    nondecreasing_of_sorted hv
      (sortSpec_sorted _ (lt_at_asymm h) (lt_at_trans h) fuel addrs hfuel),
    hhead, ?_, hsz, hw1.size_count, ?_, htail, hnt, hnext⟩
  · rw [hhead]
    cases e : sortSpec (lt_at h) fuel addrs with
    | nil => exact absurd e hne
    | cons a l => simp
  · have e : (q1.size - 1).toNat = (sortSpec (lt_at h) fuel addrs).length - 1 := by
      rw [hw1.size_count]; omega
    rw [e]; exact hwalk

/-- Witness of C5 on the queue "banana", "apple", "cherry". -/
theorem q_sort_writes_back_witness :
    well_formed fruit_h3 fruit_q3 [1, 2, 3] ∧ 2 ≤ fruit_q3.size ∧
    ∃ h1 q1 addrs1 t nt, q_sort 3 fruit_h3 (some fruit_q3) = some (h1, some q1) ∧
      lseg h1 q1.head addrs1 none ∧ addrs1.Nodup ∧
      nondecreasing (values h1 addrs1) ∧
      q1.head = addrs1.head? ∧ q1.head ≠ none ∧
      q1.size = fruit_q3.size ∧ q1.size = addrs1.length ∧
      q_sort_walk (q1.size - 1).toNat h1 q1.head = some (some t) ∧
      q1.tail = some t ∧ h1 t = some nt ∧ nt.next = none :=
  ⟨by decide, by decide,
    q_sort_writes_back fruit_h3 fruit_q3 [1, 2, 3] 3 (by decide) (by decide) (by decide)⟩

/-! ## Properties of `q_reverse` -/

/-- C6: for every well-formed queue, `q_reverse` (with fuel at least the number of elements)
returns a well-formed queue whose elements from `head` are the previous ones in reverse
order, each with its string; the previous `tail` is the new `head`, the previous `head` is
the new `tail`, whose `next` is `NULL`, and `size` is unchanged. -/
theorem q_reverse_reverses (h : Heap) (q : queue_t) (addrs : List Nat) (fuel : Nat)
    (hw : well_formed h q addrs) (hfuel : addrs.length ≤ fuel) :
    ∃ h1 q1, q_reverse fuel h (some q) = some (h1, some q1) ∧
      well_formed h1 q1 addrs.reverse ∧
      q_values fuel h1 q1.head = some (values h addrs).reverse ∧
      values h1 addrs.reverse = (values h addrs).reverse ∧
      q1.head = q.tail ∧ q1.tail = q.head ∧ q1.size = q.size ∧
      (∀ t, q1.tail = some t → ∃ nt, h1 t = some nt ∧ nt.next = none) := by
  obtain ⟨h1, hrun, hw1, _, hv⟩ := q_reverse_spec hw hfuel
  have hvals : values h1 addrs.reverse = (values h addrs).reverse := by
    rw [values_eq hv]; simp [values]
  refine ⟨h1, _, hrun, hw1, ?_, hvals, rfl, rfl, rfl, ?_⟩
  · rw [← hvals]
    exact q_values_spec _ hw1.reach (by simpa using hfuel)
  · intro t ht
    have hne : addrs.reverse ≠ [] := by
      intro e
      have := hw1.tail_last
      rw [e] at this
      rw [this] at ht
      simp at ht
    obtain ⟨t1, nt, htail, hnt, hnext, _⟩ := well_formed_tail hw1 hne
    rw [htail] at ht
    cases ht
    exact ⟨nt, hnt, hnext⟩

/-- Witness of C6 on the queue "banana", "apple", "cherry". -/
theorem q_reverse_reverses_witness :
    well_formed fruit_h3 fruit_q3 [1, 2, 3] ∧
    state_values 3 (q_reverse 3 fruit_h3 (some fruit_q3))
        = some [cstr "cherry", cstr "apple", cstr "banana"] ∧
    ∃ h1 q1, q_reverse 3 fruit_h3 (some fruit_q3) = some (h1, some q1) ∧
      well_formed h1 q1 [1, 2, 3].reverse ∧
      q_values 3 h1 q1.head = some (values fruit_h3 [1, 2, 3]).reverse ∧
      values h1 [1, 2, 3].reverse = (values fruit_h3 [1, 2, 3]).reverse ∧
      q1.head = fruit_q3.tail ∧ q1.tail = fruit_q3.head ∧ q1.size = fruit_q3.size ∧
      (∀ t, q1.tail = some t → ∃ nt, h1 t = some nt ∧ nt.next = none) :=
  ⟨by decide, by decide,
    q_reverse_reverses fruit_h3 fruit_q3 [1, 2, 3] 3 (by decide) (by decide)⟩

/-- C7: `q_reverse` is an involution: for every well-formed queue (in particular every
non-empty one), a second `q_reverse` after a first one gives back the original heap and
queue record, hence the original order of the elements and the original `head` and
`tail`. -/
theorem q_reverse_involution (h : Heap) (q : queue_t) (addrs : List Nat) (fuel : Nat)
    (hw : well_formed h q addrs) (hfuel : addrs.length ≤ fuel) :
    ∃ h1 q1, q_reverse fuel h (some q) = some (h1, some q1) ∧
      q_reverse fuel h1 (some q1) = some (h, some q) ∧
      q_values fuel h q.head = some (values h addrs) := by
  obtain ⟨h1, q1, hrun1, _, hrun2⟩ := q_reverse_twice hw hfuel
  exact ⟨h1, q1, hrun1, hrun2, q_values_spec _ hw.reach hfuel⟩

/-- Witness of C7 on the queue "banana", "apple", "cherry". -/
theorem q_reverse_involution_witness :
    well_formed fruit_h3 fruit_q3 [1, 2, 3] ∧
    ∃ h1 q1, q_reverse 3 fruit_h3 (some fruit_q3) = some (h1, some q1) ∧
      q_reverse 3 h1 (some q1) = some (fruit_h3, some fruit_q3) ∧
      q_values 3 fruit_h3 fruit_q3.head = some (values fruit_h3 [1, 2, 3]) :=
  ⟨by decide, q_reverse_involution fruit_h3 fruit_q3 [1, 2, 3] 3 (by decide) (by decide)⟩

/-! ## The limits of `int` in the inserting operations -/

theorem size_t_pred (c : Nat) (hc : 0 < c) (hc2 : c < SIZE_T_MOD) :
    (c + SIZE_T_MOD - 1) % SIZE_T_MOD = c - 1 := by
  unfold SIZE_T_MOD at *
  omega

theorem copied_prefix (b : Buffer) (v : List Int) (c : Nat) (hc : 0 < c) :
    (List.range (min v.length (c - 1) + 1)).map (poke (strncpy b v c) (c - 1) 0)
      = v.take (min v.length (c - 1)) ++ [0] := by
  apply List.ext_getElem
  · simp [List.length_take]
  · intro i h1 h2
    simp only [List.length_map, List.length_range] at h1
    simp only [List.getElem_map, List.getElem_range]
    by_cases hi : i < min v.length (c - 1)
    · have hlen : i < v.length := by omega
      have hne : i ≠ c - 1 := by omega
      have hic : i < c := by omega
      rw [List.getElem_append_left (by simp [List.length_take]; omega)]
      simp [poke, strncpy, hne, hic, List.getElem?_eq_getElem hlen]
    · have hi : i = min v.length (c - 1) := by omega
      rw [List.getElem_append_right (by simp [List.length_take]; omega)]
      simp only [List.getElem_singleton]
      by_cases hm : i = c - 1
      · simp [poke, hm]
      · have hic : i < c := by omega
        have hlen : v.length ≤ i := by omega
        simp [poke, strncpy, hm, hic, List.getElem?_eq_none hlen]

/-- C8: for every well-formed queue whose first element, at address `a`, holds the string
`v`, and every supplied buffer with `0 < bufsize`, `q_remove_head` returns true; the
elements from `head` are the previous ones without the first, each with its string, the
removed element is freed, `size` is one less, the buffer holds the first
`min (len v) (bufsize - 1)` characters of `v` followed by a NUL, and nothing is written at
or beyond offset `bufsize`. -/
theorem q_remove_head_copies (h : Heap) (q : queue_t) (a : Nat) (addrs : List Nat)
    (b : Buffer) (c : Nat) (hw : well_formed h q (a :: addrs)) (hc : 0 < c)
    (hc2 : c < SIZE_T_MOD) :
    ∃ h1 q1 b1, q_remove_head h (some q) (some b) c = some (h1, some q1, some b1, true) ∧
      lseg h1 q1.head addrs none ∧
      q_values addrs.length h1 q1.head = some (values h addrs) ∧
      h1 a = none ∧
      q1.size = q.size - 1 ∧ q1.size = addrs.length ∧
      (List.range (min (value_at h a).length (c - 1) + 1)).map b1
        = (value_at h a).take (min (value_at h a).length (c - 1)) ++ [0] ∧
      (∀ i, c ≤ i → b1 i = b i) := by
  obtain ⟨hhead, n, hn, hrest⟩ := hw.reach
  have ha : a ∉ addrs := lseg_not_mem hn hrest
  have hrel : ∀ x ∈ addrs, release h a x = h x := fun x hx => by
    have : x ≠ a := fun e => ha (e ▸ hx)
    simp [release, this]
  have hreach1 : lseg (release h a) n.next addrs none := lseg_congr hrel hrest
  have hvals : values (release h a) addrs = values h addrs := by
    unfold values
    apply List.map_congr_left
    intro x hx
    unfold value_at
    rw [hrel x hx]
  have hsz := hw.size_count
  refine ⟨release h a, { q with head := n.next, size := q.size - 1 },
    poke (strncpy b n.value c) (c - 1) 0, ?_, hreach1, ?_, by simp [release], rfl, ?_, ?_, ?_⟩
  · simp [q_remove_head, hhead, hn, size_t_pred c hc hc2]
  · rw [← hvals]
    exact q_values_spec _ hreach1 (le_refl _)
  · show q.size - 1 = (addrs.length : Int)
    rw [hsz]; simp
  · rw [value_at_of_some hn]
    exact copied_prefix b n.value c hc
  · intro i hi
    have h1 : i ≠ c - 1 := by omega
    have h2 : ¬ i < c := by omega
    simp [poke, strncpy, h1, h2]

/-- Witness of C8: `q_insert_head` of "hello" into a new queue, then `q_remove_head` with a
buffer of 3 bytes, returns true and leaves "he" and a NUL in the buffer. -/
theorem q_remove_head_copies_witness :
    q_insert_head emptyHeap (q_new true) (cstr "hello") (some 1) true
        = some (hello_h, some hello_q, true) ∧
    well_formed hello_h hello_q [1] ∧ 0 < 3 ∧ 3 < SIZE_T_MOD ∧
    (q_remove_head hello_h (some hello_q) (some filled_buffer) 3).map
        (fun s => (s.2.2.1.map fun b1 => (List.range 3).map b1, s.2.2.2))
        = some (some (cstr "he" ++ [0]), true) ∧
    ∃ h1 q1 b1, q_remove_head hello_h (some hello_q) (some filled_buffer) 3
        = some (h1, some q1, some b1, true) ∧
      lseg h1 q1.head [] none ∧
      q_values ([] : List Nat).length h1 q1.head = some (values hello_h []) ∧
      h1 1 = none ∧
      q1.size = hello_q.size - 1 ∧ q1.size = ([] : List Nat).length ∧
      (List.range (min (value_at hello_h 1).length (3 - 1) + 1)).map b1
        = (value_at hello_h 1).take (min (value_at hello_h 1).length (3 - 1)) ++ [0] ∧
      (∀ i, 3 ≤ i → b1 i = filled_buffer i) :=
  ⟨rfl, by decide, by decide, by decide, by decide,
    q_remove_head_copies hello_h hello_q 1 [] filled_buffer 3 (by decide) (by decide)
      (by decide)⟩

/-- C9 fails on the code: `q_remove_head` on the one-element queue "hello" with a supplied
buffer and `bufsize = 0` returns true, and the byte at offset `SIZE_MAX` from `sp`, which was
85, is 0 afterwards: `sp[bufsize - 1] = 0` is executed without a test of `bufsize`. -/
theorem q_remove_head_zero_bufsize_writes :
    well_formed hello_h hello_q [1] ∧
    filled_buffer (SIZE_T_MOD - 1) = 85 ∧
    (q_remove_head hello_h (some hello_q) (some filled_buffer) 0).map
        (fun s => (s.2.2.1.map fun b1 => b1 (SIZE_T_MOD - 1), s.2.2.2))
        = some (some 0, true) := by
  decide

/-! ## The stale `tail` left by `q_remove_head` -/

/-- C4 fails on the code: after `q_new`, `q_insert_head` of "a" and a successful
`q_remove_head` of this last element, `size` is 0 and `head` is `NULL`, but `tail` still
holds the address 1 of the removed element, which is freed. -/
theorem q_remove_head_leaves_stale_tail :
    emptied.map (fun s => (s.2.1, s.2.2.2))
        = some (some { head := none, tail := some 1, size := 0 }, true) ∧
    emptied.map (fun s => s.1 1) = some none := by
  decide

/-- C3 fails on the code: after `q_new`, `q_insert_head` of "a", `q_remove_head` and
`q_insert_tail` of "b", when `malloc` returns the freed address 1 again the insertion
returns true and `q_size` is 1 while no element is reachable from `head`; when `malloc`
returns the other address 2 the insertion writes through the stale `tail` into the freed
element. -/
theorem q_size_differs_from_reachable :
    (emptied_then_insert_tail 1).map (fun s => (q_size s.2.1, s.2.2)) = some (1, true) ∧
    state_values 5 ((emptied_then_insert_tail 1).map fun s => (s.1, s.2.1)) = some [] ∧
    (emptied_then_insert_tail 2).isNone = true := by
  decide

/-! ## The split of `q_sort` -/

theorem q_sort_unfold (fuel : Nat) (h : Heap) (q : queue_t) (hsize : ¬ q.size < 2) :
    q_sort (fuel + 1) h (some q) = (q_sort_split h q).bind (q_sort_conquer fuel q) := by
  rw [q_sort, if_neg hsize]
  unfold q_sort_split q_sort_conquer
  dsimp only
  generalize q_sort_walk (q.size / 2 + q.size % 2 - 1).toNat h q.head = w
  rcases w with _ | _ | p
  · rfl
  · rfl
  · cases hp : h p <;> simp [hp]

theorem q_sort_split_spec {h : Heap} {q : queue_t} {addrs : List Nat}
    (hw : well_formed h q addrs) (hlen : 2 ≤ addrs.length) :
    ∃ h1 left right, q_sort_split h q = some (h1, left, right) ∧
      well_formed h1 left (addrs.take (addrs.length / 2 + addrs.length % 2)) ∧
      well_formed h1 right (addrs.drop (addrs.length / 2 + addrs.length % 2)) ∧
      (∀ x ∈ addrs.take (addrs.length / 2 + addrs.length % 2),
        x ∉ addrs.drop (addrs.length / 2 + addrs.length % 2)) ∧
      left.head = q.head ∧ right.tail = q.tail ∧
      left.size = q.size / 2 + q.size % 2 ∧ right.size = q.size / 2 ∧
      frame addrs h h1 ∧ same_values h h1 := by
  have hsize := hw.size_count
  have hk1 : 1 ≤ addrs.length / 2 + addrs.length % 2 := by omega
  have hkn : addrs.length / 2 + addrs.length % 2 < addrs.length := by omega
  generalize hk : addrs.length / 2 + addrs.length % 2 = k at hk1 hkn
  have hTlen : (addrs.take k).length = k := by rw [List.length_take]; omega
  have hDlen : (addrs.drop k).length = addrs.length - k := List.length_drop _ _
  have hTne : addrs.take k ≠ [] := by
    intro e; rw [e] at hTlen; simp at hTlen; omega
  have hDne : addrs.drop k ≠ [] := by
    intro e; rw [e] at hDlen; simp at hDlen; omega
  obtain ⟨init, pa, hT⟩ : ∃ init pa, addrs.take k = init ++ [pa] :=
    ⟨_, _, (List.dropLast_append_getLast hTne).symm⟩
  have hinit : init.length = k - 1 := by
    have := congrArg List.length hT
    simp [hTlen] at this; omega
  have hsplit : addrs = init ++ pa :: addrs.drop k := by
    conv_lhs => rw [← List.take_append_drop k addrs, hT]
    simp
  have hnodup : addrs.Nodup := lseg_nodup hw.reach
  have hreach := hw.reach
  rw [hsplit] at hreach hnodup
  obtain ⟨m, hseg_init, hseg_rest⟩ := lseg_append.mp hreach
  obtain ⟨em, np, hnp, hseg_D⟩ := hseg_rest
  subst em
  have hpa_init : pa ∉ init := by
    intro hm
    exact (List.nodup_append.mp hnodup).2.2 hm (List.mem_cons_self _ _)
  have hpa_D : pa ∉ addrs.drop k := lseg_not_mem hnp hseg_D
  have hpa_mem : pa ∈ addrs := by rw [hsplit]; simp
  have hTD : ∀ x ∈ addrs.take k, x ∉ addrs.drop k := by
    intro x hx hxD
    rw [hT] at hx
    rcases List.mem_append.mp hx with hx | hx
    · exact (List.nodup_append.mp hnodup).2.2 hx (List.mem_cons_of_mem _ hxD)
    · simp at hx; subst hx; exact hpa_D hxD
  have hwalk : q_sort_walk (q.size / 2 + q.size % 2 - 1).toNat h q.head = some (some pa) := by
    have e : (q.size / 2 + q.size % 2 - 1).toNat = init.length := by
      rw [hsize, hinit]; omega
    rw [e]
    exact q_sort_walk_spec init hseg_init
  have hstore : ∀ x, x ≠ pa → store h pa { np with next := none } x = h x :=
    fun x hx => store_other h pa x _ hx
  refine ⟨store h pa { np with next := none },
    { head := q.head, tail := some pa, size := q.size / 2 + q.size % 2 },
    { head := np.next, tail := q.tail, size := q.size / 2 }, ?_, ⟨?_, ?_, ?_⟩, ⟨?_, ?_, ?_⟩,
    hTD, rfl, rfl, rfl, rfl, ?_, same_values_store hnp none⟩
  · unfold q_sort_split
    simp only [hwalk, hnp]
  · rw [hT]
    refine lseg_append.mpr ⟨some pa, ?_, rfl, _, store_same h pa _, rfl⟩
    exact lseg_congr (fun x hx => hstore x (fun e => hpa_init (e ▸ hx))) hseg_init
  · rw [hT]; simp
  · show q.size / 2 + q.size % 2 = ((addrs.take k).length : Int)
    rw [hTlen, hsize, ← hk]; omega
  · exact lseg_congr (fun x hx => hstore x (fun e => hpa_D (e ▸ hx))) hseg_D
  · show q.tail = (addrs.drop k).getLast?
    rw [hw.tail_last]
    conv_lhs => rw [← List.take_append_drop k addrs]
    rw [List.getLast?_append_of_ne_nil _ hDne]
  · show q.size / 2 = ((addrs.drop k).length : Int)
    rw [hDlen, hsize]; omega
  · intro x hx
    exact hstore x (fun e => hx (e ▸ hpa_mem))

theorem store_self {h : Heap} {a : Nat} {n : list_ele_t} (hn : h a = some n) :
    store h a n = h := by
  funext x
  by_cases hx : x = a
  · subst hx; rw [store_same, hn]
  · exact store_other h a x n hx

theorem heap_eq_of_lseg {h h1 : Heap} {p : Option Nat} {as : List Nat}
    (hs : lseg h p as none) (hs1 : lseg h1 p as none) (hv : same_values h h1)
    (hf : frame as h h1) : h1 = h := by
  funext x
  by_cases hx : x ∈ as
  · obtain ⟨n, hn⟩ := lseg_live hs x hx
    obtain ⟨n1, hn1⟩ := lseg_live hs1 x hx
    have hnext := lseg_next_eq hs hs1 x hx n n1 hn hn1
    have hval := hv x
    rw [hn, hn1] at hval
    rw [hn, hn1]
    cases n; cases n1
    simp at hval hnext
    simp [hval, hnext]
  · exact hf x hx

/-! ## Properties of `q_insert_tail` -/

theorem less_than_str_iff_lex_less (a : List Int) :
    ∀ b : List Int, less_than_str a b = true ↔ lex_less a b := by
  induction a with
  | nil =>
    intro b
    cases b <;> simp [less_than_str, lex_less]
  | cons x l ih =>
    intro b
    cases b with
    | nil => simp [less_than_str, lex_less]
    | cons y r =>
      rcases lt_trichotomy x y with hxy | hxy | hxy
      · have : ¬ x > y := not_lt.mpr hxy.le
        simp [less_than_str, lex_less, this, hxy]
      · subst hxy
        simp [less_than_str, lex_less, ih r]
      · have hn : ¬ x < y := not_lt.mpr hxy.le
        have hne : x ≠ y := ne_of_gt hxy
        simp [less_than_str, lex_less, hxy, hn, hne]

theorem less_than_str_prefix (a : List Int) :
    ∀ c : List Int, c ≠ [] → less_than_str a (a ++ c) = true := by
  induction a with
  | nil =>
    intro c hc
    cases c with
    | nil => exact absurd rfl hc
    | cons y r => simp [less_than_str]
  | cons x l ih =>
    intro c hc
    simp [less_than_str, ih c hc]

theorem less_than_str_irrefl (a : List Int) : less_than_str a a = false := by
  rw [less_than_str_false_iff]

theorem map_byte_of_char_ascii (v : List Int) (hv : ∀ c ∈ v, 0 ≤ c ∧ c ≤ 127) :
    v.map byte_of_char = v := by
  have e : ∀ c ∈ v, byte_of_char c = id c := by
    intro c hc
    obtain ⟨h0, h1⟩ := hv c hc
    unfold byte_of_char
    simp only [id]
    omega
  rw [List.map_congr_left e, List.map_id]

/-- C12, as amended: for every two elements `a` and `b`, `less_than(a, b)` is true if and
only if the string of `a` is strictly less than the string of `b` in the lexicographic order
on the values of the characters as `char`, in which a proper prefix is less than any string
it prefixes; this is the order `<` of lists of character values, `less_than` is false when
the two strings are equal, and for strings whose characters are all in `0..127` it is the
byte-wise lexicographic order. -/
theorem less_than_lexicographic (a b : list_ele_t) :
    (less_than a b = true ↔ lex_less a.value b.value) ∧
    (less_than a b = true ↔ a.value < b.value) ∧
    (∀ c : List Int, c ≠ [] → b.value = a.value ++ c → less_than a b = true) ∧
    (a.value = b.value → less_than a b = false) ∧
    ((∀ c ∈ a.value, 0 ≤ c ∧ c ≤ 127) → (∀ c ∈ b.value, 0 ≤ c ∧ c ≤ 127) →
      (less_than a b = true ↔ bytewise_less a.value b.value)) := by
  refine ⟨less_than_str_iff_lex_less _ _, less_than_str_iff_lt _ _, ?_, ?_, ?_⟩
  · intro c hc hb
    unfold less_than
    rw [hb]
    exact less_than_str_prefix _ c hc
  · intro hab
    unfold less_than
    rw [hab]
    exact less_than_str_irrefl _
  · intro ha hb
    unfold bytewise_less
    rw [map_byte_of_char_ascii _ ha, map_byte_of_char_ascii _ hb]
    exact less_than_str_iff_lex_less _ _

/-- Witness of C12: "app" is less than "apple", "apple" is not less than "apple", and
"apple" is less than "banana" as it is byte-wise. -/
theorem less_than_lexicographic_witness :
    less_than { value := cstr "app", next := none } { value := cstr "apple", next := none }
        = true ∧
    less_than { value := cstr "apple", next := none } { value := cstr "apple", next := some 7 }
        = false ∧
    (less_than { value := cstr "apple", next := none } { value := cstr "banana", next := none }
        = true ↔ bytewise_less (cstr "apple") (cstr "banana")) :=
  ⟨(less_than_lexicographic { value := cstr "app", next := none }
      { value := cstr "apple", next := none }).2.2.1 (cstr "le") (by decide) (by decide),
    (less_than_lexicographic { value := cstr "apple", next := none }
      { value := cstr "apple", next := some 7 }).2.2.2.1 (by decide),
    (less_than_lexicographic { value := cstr "apple", next := none }
      { value := cstr "banana", next := none }).2.2.2.2 (by decide) (by decide)⟩

/-- C12 as stated fails on the code, where `char` is signed.  The string of the single byte
`0x80` (the character `-128`) is found less than the string of the single byte `0x7f`,
which it is not byte-wise; and the UTF-8 string of the bytes `0xc3 0xa9` (the characters
`-61`, `-87`) is found less than "z". -/
theorem less_than_not_bytewise :
    [(-128 : Int)].map byte_of_char = [128] ∧ [(127 : Int)].map byte_of_char = [127] ∧
    less_than { value := [-128], next := none } { value := [127], next := none } = true ∧
    ¬ bytewise_less [-128] [127] ∧
    less_than { value := [127], next := none } { value := [-128], next := none } = false ∧
    bytewise_less [127] [-128] ∧
    [(-61 : Int), -87].map byte_of_char = [195, 169] ∧
    less_than { value := [-61, -87], next := none } { value := cstr "z", next := none }
        = true ∧
    ¬ bytewise_less [-61, -87] (cstr "z") := by
  decide

/-- C20: `less_than` is a strict weak order on the strings of the elements: it is
irreflexive, asymmetric and transitive, and two elements are incomparable (neither is less
than the other) exactly when their strings are equal. -/
theorem less_than_strict_weak_order (a b c : list_ele_t) :
    less_than a a = false ∧
    (less_than a b = true → less_than b a = false) ∧
    (less_than a b = true → less_than b c = true → less_than a c = true) ∧
    ((less_than a b = false ∧ less_than b a = false) ↔ a.value = b.value) := by
  unfold less_than
  refine ⟨less_than_str_irrefl _, less_than_str_asymm _ _, ?_, ?_⟩
  · intro hab hbc
    rw [less_than_str_iff_lt] at *
    exact lt_trans hab hbc
  · rw [less_than_str_false_iff, less_than_str_false_iff]
    constructor
    · rintro ⟨h1, h2⟩
      exact le_antisymm h2 h1
    · intro e
      rw [e]
      exact ⟨le_refl _, le_refl _⟩

/-- Witness of C20 on "apple", "banana" and "cherry". -/
theorem less_than_strict_weak_order_witness :
    less_than { value := cstr "banana", next := none } { value := cstr "apple", next := none }
        = false ∧
    less_than { value := cstr "apple", next := none } { value := cstr "cherry", next := none }
        = true :=
  ⟨(less_than_strict_weak_order { value := cstr "apple", next := none }
      { value := cstr "banana", next := none } { value := cstr "cherry", next := none }).2.1
      (by decide),
    (less_than_strict_weak_order { value := cstr "apple", next := none }
      { value := cstr "banana", next := none } { value := cstr "cherry", next := none }).2.2.1
      (by decide) (by decide)⟩

/-! ## Failing and trivial calls -/

/-- C14: `q_remove_head` on a `NULL` queue, and on a queue whose `head` is `NULL`, returns
false and changes nothing: the heap, the queue record (`head`, `tail` and `size`, so a
`size` of 0 stays 0) and the caller memory are those before the call. -/
theorem q_remove_head_fails_on_empty (h : Heap) (q : queue_t) (sp : Option Buffer)
    (bufsize : Nat) (hempty : q.head = none) :
    q_remove_head h none sp bufsize = some (h, none, sp, false) ∧
    q_remove_head h (some q) sp bufsize = some (h, some q, sp, false) := by
  constructor
  · rfl
  · simp [q_remove_head, hempty]

/-- Witness of C14 on the queue returned by `q_new`. -/
theorem q_remove_head_fails_on_empty_witness :
    q_new true = some { head := none, tail := none, size := 0 } ∧
    q_remove_head emptyHeap none (some filled_buffer) 3
        = some (emptyHeap, none, some filled_buffer, false) ∧
    q_remove_head emptyHeap (some { head := none, tail := none, size := 0 })
        (some filled_buffer) 3
        = some (emptyHeap, some { head := none, tail := none, size := 0 },
            some filled_buffer, false) :=
  ⟨rfl, q_remove_head_fails_on_empty emptyHeap { head := none, tail := none, size := 0 }
    (some filled_buffer) 3 rfl⟩

/-- C15: `q_insert_head` and `q_insert_tail` return false when `q` is `NULL`, when the
element cannot be allocated and when its string cannot be allocated; in each of these cases
the heap and the queue record (`head`, `tail`, `size`) are those before the call. -/
theorem q_insert_fails_unchanged (h : Heap) (q : queue_t) (s : List Int) (p : Option Nat)
    (a : Nat) (in_ok : Bool) :
    q_insert_head h none s p in_ok = some (h, none, false) ∧
    q_insert_tail h none s p in_ok = some (h, none, false) ∧
    q_insert_head h (some q) s none in_ok = some (h, some q, false) ∧
    q_insert_tail h (some q) s none in_ok = some (h, some q, false) ∧
    q_insert_head h (some q) s (some a) false = some (h, some q, false) ∧
    q_insert_tail h (some q) s (some a) false = some (h, some q, false) :=
  ⟨rfl, rfl, rfl, rfl, rfl, rfl⟩

/-- C16: `q_reverse` and `q_sort` return without fault on a `NULL` queue, and on every
well-formed queue of size 0 or 1 they leave the heap and the queue record as they were, so
`head`, `tail`, `size` and the elements met from `head` are those before the call. -/
theorem q_reverse_q_sort_trivial (h : Heap) (q : queue_t) (addrs : List Nat) (fuel : Nat)
    (hw : well_formed h q addrs) (hsize : q.size = 0 ∨ q.size = 1)
    (hfuel : addrs.length ≤ fuel) :
    q_reverse fuel h none = some (h, none) ∧
    q_sort fuel h none = some (h, none) ∧
    q_reverse fuel h (some q) = some (h, some q) ∧
    q_sort fuel h (some q) = some (h, some q) := by
  have hlt : q.size < 2 := by omega
  have hlen : addrs.length ≤ 1 := by
    have := hw.size_count
    omega
  refine ⟨rfl, ?_, ?_, ?_⟩
  · cases fuel <;> simp [q_sort]
  · obtain ⟨h1, hrun, hw1, hfr, hv⟩ := q_reverse_spec hw hfuel
    have hrev : addrs.reverse = addrs := by
      match addrs, hlen with
      | [], _ => rfl
      | [_], _ => rfl
      | _ :: _ :: _, hl => exact absurd hl (by simp)
    have hht : q.tail = q.head := by
      rw [hw.tail_last, lseg_head hw.reach]
      match addrs, hlen with
      | [], _ => rfl
      | [_], _ => rfl
      | _ :: _ :: _, hl => exact absurd hl (by simp)
    have hreach1 : lseg h1 q.head addrs none := by
      have := hw1.reach
      rw [hrev] at this
      simpa [hht] using this
    have hh : h1 = h := heap_eq_of_lseg hw.reach hreach1 hv hfr
    have hq : ({ q with head := q.tail, tail := q.head } : queue_t) = q := by
      cases q
      simp at hht ⊢
      simp [hht]
    rw [hrun, hh, hq]
  · cases fuel <;> simp [q_sort, hlt]

/-- Witness of C16 on the one-element queue "hello". -/
theorem q_reverse_q_sort_trivial_witness :
    well_formed hello_h hello_q [1] ∧ (hello_q.size = 0 ∨ hello_q.size = 1) ∧
    q_reverse 1 hello_h none = some (hello_h, none) ∧
    q_sort 1 hello_h none = some (hello_h, none) ∧
    q_reverse 1 hello_h (some hello_q) = some (hello_h, some hello_q) ∧
    q_sort 1 hello_h (some hello_q) = some (hello_h, some hello_q) :=
  ⟨by decide, by decide,
    q_reverse_q_sort_trivial hello_h hello_q [1] 1 (by decide) (by decide) (by decide)⟩

/-! ## Idempotence of `q_sort` -/

theorem eq_of_sorted_perm {u v : List (List Int)}
    (hu : u.Pairwise (fun x y => less_than_str y x = false)) (hv : nondecreasing v)
    (hp : List.Perm u v) : u = v := by
  have hu1 : u.Pairwise (· ≤ ·) :=
    hu.imp (fun {x y} hxy => (less_than_str_false_iff y x).mp hxy)
  have hv1 : v.Chain' (· ≤ ·) :=
    List.Chain'.imp (fun x y hxy => (less_than_str_false_iff y x).mp hxy) hv
  have hv2 : v.Pairwise (· ≤ ·) := List.chain'_iff_pairwise.mp hv1
  exact List.eq_of_perm_of_sorted hp hu1 hv2

theorem q_sort_values {h : Heap} {q : queue_t} {addrs : List Nat} {fuel : Nat}
    (hw : well_formed h q addrs) (hfuel : addrs.length ≤ fuel) :
    ∃ h1 q1 addrs1, q_sort fuel h (some q) = some (h1, some q1) ∧
      well_formed h1 q1 addrs1 ∧ addrs1.length = addrs.length ∧
      (values h1 addrs1).Pairwise (fun x y => less_than_str y x = false) ∧
      List.Perm (values h1 addrs1) (values h addrs) := by
  obtain ⟨h1, q1, hrun, hw1, _, _, hv⟩ := q_sort_spec fuel h q addrs hw hfuel
  refine ⟨h1, q1, _, hrun, hw1, sortSpec_length _ _ _, ?_, ?_⟩
  · rw [values_eq hv]
    unfold values
    rw [List.pairwise_map]
    exact sortSpec_sorted _ (lt_at_asymm h) (lt_at_trans h) fuel addrs hfuel
  · rw [values_eq hv]
    exact (sortSpec_perm (lt_at h) fuel addrs).map _

/-- C13: `q_sort` is idempotent on the sequence of strings: for every well-formed queue,
when the strings met from `head` are already in non-decreasing order `q_sort` leaves this
sequence as it is, and a second `q_sort` after a first one leaves the sequence that the first
one produced. -/
theorem q_sort_idempotent (h : Heap) (q : queue_t) (addrs : List Nat) (fuel : Nat)
    (hw : well_formed h q addrs) (hfuel : addrs.length ≤ fuel) :
    ∃ h1 q1 addrs1, q_sort fuel h (some q) = some (h1, some q1) ∧
      well_formed h1 q1 addrs1 ∧
      (nondecreasing (values h addrs) → values h1 addrs1 = values h addrs) ∧
      ∃ h2 q2 addrs2, q_sort fuel h1 (some q1) = some (h2, some q2) ∧
        well_formed h2 q2 addrs2 ∧ values h2 addrs2 = values h1 addrs1 := by
  obtain ⟨h1, q1, addrs1, hrun1, hw1, hlen1, hsorted1, hperm1⟩ := q_sort_values hw hfuel
  obtain ⟨h2, q2, addrs2, hrun2, hw2, _, hsorted2, hperm2⟩ :=
    q_sort_values hw1 (show addrs1.length ≤ fuel by rw [hlen1]; exact hfuel)
  refine ⟨h1, q1, addrs1, hrun1, hw1, fun hnd => eq_of_sorted_perm hsorted1 hnd hperm1,
    h2, q2, addrs2, hrun2, hw2, ?_⟩
  exact eq_of_sorted_perm hsorted2 (List.Pairwise.chain' hsorted1) hperm2

/-- Witness of C13 on the queue "banana", "apple", "cherry": sorting twice gives "apple",
"banana", "cherry" as sorting once does. -/
theorem q_sort_idempotent_witness :
    well_formed fruit_h3 fruit_q3 [1, 2, 3] ∧
    state_values 3 (q_sort 3 fruit_h3 (some fruit_q3))
        = some [cstr "apple", cstr "banana", cstr "cherry"] ∧
    state_values 3 ((q_sort 3 fruit_h3 (some fruit_q3)).bind fun s => q_sort 3 s.1 s.2)
        = some [cstr "apple", cstr "banana", cstr "cherry"] ∧
    ∃ h1 q1 addrs1, q_sort 3 fruit_h3 (some fruit_q3) = some (h1, some q1) ∧
      well_formed h1 q1 addrs1 ∧
      (nondecreasing (values fruit_h3 [1, 2, 3]) → values h1 addrs1
        = values fruit_h3 [1, 2, 3]) ∧
      ∃ h2 q2 addrs2, q_sort 3 h1 (some q1) = some (h2, some q2) ∧
        well_formed h2 q2 addrs2 ∧ values h2 addrs2 = values h1 addrs1 :=
  ⟨by decide, by decide, by decide,
    q_sort_idempotent fruit_h3 fruit_q3 [1, 2, 3] 3 (by decide) (by decide)⟩

/-! ## Ties in `q_merge` -/

theorem lt_at_of_tie {h : Heap} {x y : Nat} (htie : value_at h x = value_at h y) :
    lt_at h x y = false := by
  unfold lt_at
  rw [htie]
  exact less_than_str_irrefl _

theorem mergeSpec_tie {h : Heap} {x y : Nat} (htie : value_at h x = value_at h y)
    (l r : List Nat) :
    mergeSpec (lt_at h) (x :: l) (y :: r) = y :: mergeSpec (lt_at h) (x :: l) r := by
  rw [mergeSpec]
  simp [lt_at_of_tie htie]

theorem q_merge_both_tie (fuel : Nat) (h : Heap) (q : queue_t) (la ra t : Nat)
    (nl nr nt : list_ele_t) (hl : h la = some nl) (hr : h ra = some nr)
    (htie : nl.value = nr.value) (hq : q.tail = some t) (ht : h t = some nt) :
    q_merge_both (fuel + 1) h q (some la) (some ra) =
      q_merge_both fuel (store h t { nt with next := some ra }) { q with tail := some ra }
        (some la) nr.next := by
  have hlt : less_than nl nr = false := by
    unfold less_than
    rw [htie]
    exact less_than_str_irrefl _
  simp [q_merge_both, hl, hr, hlt, hq, ht]

/-- C17: in `q_merge` ties go to the right operand.  For every pair of non-empty sub-queues
whose heads `a` (left) and `b` (right) hold equal strings, `q_merge` returns with `b` as the
head of the output and `a` after it; at every later stage of the merge, the element emitted
when the two current heads hold equal strings is the right one; and in the loop
`while (l && r)` such an iteration appends `r` to the output and advances `r` only. -/
theorem q_merge_ties_right (h : Heap) (left right q : queue_t) (a b : Nat)
    (L1 R1 : List Nat) (fuel : Nat)
    (hl : lseg h left.head (a :: L1) none) (hr : lseg h right.head (b :: R1) none)
    (hdisj : ∀ x ∈ a :: L1, x ∉ b :: R1)
    (hfuel : (a :: L1).length + (b :: R1).length ≤ fuel + 1)
    (htie : value_at h a = value_at h b) :
    ∃ h1 q1, q_merge fuel h left right q = some (h1, q1) ∧
      q1.head = some b ∧
      lseg h1 q1.head (b :: mergeSpec (lt_at h) (a :: L1) R1) none ∧
      a ∈ mergeSpec (lt_at h) (a :: L1) R1 ∧
      (∀ x y l r, value_at h x = value_at h y →
        mergeSpec (lt_at h) (x :: l) (y :: r) = y :: mergeSpec (lt_at h) (x :: l) r) ∧
      (∀ f g qq la ra t nl nr nt, g la = some nl → g ra = some nr → nl.value = nr.value →
        qq.tail = some t → g t = some nt →
        q_merge_both (f + 1) g qq (some la) (some ra) =
          q_merge_both f (store g t { nt with next := some ra }) { qq with tail := some ra }
            (some la) nr.next) := by
  obtain ⟨h1, q1, hrun, hseg, _, _, _, _⟩ :=
    @q_merge_spec h left right q (a :: L1) (b :: R1) fuel hl hr (by simp) (by simp) hdisj
      hfuel
  rw [mergeSpec_tie htie] at hseg
  refine ⟨h1, q1, hrun, hseg.1, hseg, ?_, fun x y l r e => mergeSpec_tie e l r, ?_⟩
  · exact (mem_mergeSpec _).mpr (Or.inl (List.mem_cons_self _ _))
  · intro f g qq la ra t nl nr nt e1 e2 e3 e4 e5
    exact q_merge_both_tie f g qq la ra t nl nr nt e1 e2 e3 e4 e5

/-- Witness of C17: merging "pear", "plum" (addresses 1, 3) with "pear" (address 2) puts
the right "pear" first and the left "pear" right after it. -/
theorem q_merge_ties_right_witness :
    lseg tie_heap tie_left.head [1, 3] none ∧ lseg tie_heap tie_right.head [2] none ∧
    value_at tie_heap 1 = value_at tie_heap 2 ∧
    (q_merge 2 tie_heap tie_left tie_right tie_out).map
        (fun s => (s.2.head, (s.1 2).map list_ele_t.next, (s.1 1).map list_ele_t.next))
        = some (some 2, some (some 1), some (some 3)) ∧
    ∃ h1 q1, q_merge 2 tie_heap tie_left tie_right tie_out = some (h1, q1) ∧
      q1.head = some 2 ∧
      lseg h1 q1.head (2 :: mergeSpec (lt_at tie_heap) (1 :: [3]) []) none ∧
      1 ∈ mergeSpec (lt_at tie_heap) (1 :: [3]) [] ∧
      (∀ x y l r, value_at tie_heap x = value_at tie_heap y →
        mergeSpec (lt_at tie_heap) (x :: l) (y :: r)
          = y :: mergeSpec (lt_at tie_heap) (x :: l) r) ∧
      (∀ f g qq la ra t nl nr nt, g la = some nl → g ra = some nr → nl.value = nr.value →
        qq.tail = some t → g t = some nt →
        q_merge_both (f + 1) g qq (some la) (some ra) =
          q_merge_both f (store g t { nt with next := some ra }) { qq with tail := some ra }
            (some la) nr.next) :=
  ⟨by decide, by decide, by decide, by decide,
    q_merge_ties_right tie_heap tie_left tie_right tie_out 1 2 [3] [] 2 (by decide)
      (by decide) (by decide) (by decide) (by decide)⟩

/-! ## Safety of the split and termination of `q_sort` -/

theorem head_ne_none_of_well_formed {h : Heap} {q : queue_t} {as : List Nat}
    (hw : well_formed h q as) (hlen : 1 ≤ as.length) : q.head ≠ none := by
  rw [lseg_head hw.reach]
  cases as with
  | nil => simp at hlen
  | cons a l => simp

theorem q_sort_conquer_spec {h1 : Heap} {q left right : queue_t} {T D : List Nat} {fuel : Nat}
    (hwl : well_formed h1 left T) (hwr : well_formed h1 right D)
    (hTD : ∀ x ∈ T, x ∉ D) (hT1 : 1 ≤ T.length) (hD1 : 1 ≤ D.length)
    (hTf : T.length ≤ fuel) (hDf : D.length ≤ fuel)
    (hsum : T.length + D.length ≤ fuel + 1) :
    ∃ h2 left1 h3 right1 h4 q2,
      q_sort fuel h1 (some left) = some (h2, some left1) ∧
      q_sort fuel h2 (some right) = some (h3, some right1) ∧
      left1.head ≠ none ∧ right1.head ≠ none ∧
      q_merge (fuel + 1) h3 left1 right1 { q with head := none, tail := none }
        = some (h4, q2) ∧
      q_sort_conquer fuel q (h1, left, right) = some (h4, some q2) := by
  obtain ⟨h2, left1, erunl, hwl2, _, hfrl, _⟩ := q_sort_spec fuel h1 left T hwl hTf
  have hwr2 : well_formed h2 right D :=
    ⟨lseg_congr (fun x hx => hfrl x (fun hm => hTD x hm hx)) hwr.reach, hwr.tail_last,
      hwr.size_count⟩
  obtain ⟨h3, right1, erunr, hwr3, _, hfrr, _⟩ := q_sort_spec fuel h2 right D hwr2 hDf
  have hl3 : lseg h3 left1.head (sortSpec (lt_at h1) fuel T) none :=
    lseg_congr (fun x hx => hfrr x (fun hm =>
      hTD x ((mem_sortSpec _ _ _ _).mp hx) hm)) hwl2.reach
  have hlenL : (sortSpec (lt_at h1) fuel T).length = T.length := sortSpec_length _ _ _
  have hlenR : (sortSpec (lt_at h2) fuel D).length = D.length := sortSpec_length _ _ _
  obtain ⟨h4, q2, erunm, _, _, _, _, _⟩ :=
    @q_merge_spec h3 left1 right1 { q with head := none, tail := none } _ _ (fuel + 1)
      hl3 hwr3.reach
      (by intro e; rw [e] at hlenL; simp at hlenL; omega)
      (by intro e; rw [e] at hlenR; simp at hlenR; omega)
      (fun x hx hm => hTD x ((mem_sortSpec _ _ _ _).mp hx) ((mem_sortSpec _ _ _ _).mp hm))
      (by rw [hlenL, hlenR]; omega)
  refine ⟨h2, left1, h3, right1, h4, q2, erunl, erunr,
    head_ne_none_of_well_formed hwl2 (by rw [hlenL]; exact hT1),
    head_ne_none_of_well_formed hwr3 (by rw [hlenR]; exact hD1), erunm, ?_⟩
  unfold q_sort_conquer
  simp only [erunl, erunr, erunm]

/-- C18: for every well-formed queue with at least two elements the split of `q_sort`
returns without walking past the end of the list; `left` is a well-formed queue on the first
`⌈size/2⌉` elements and `right` one on the remaining `⌊size/2⌋`, the sizes add up to `size`,
both are non-empty and they share no element; both recursive calls return, and `q_merge` is
called with `left.head` and `right.head` different from `NULL` and returns without
dereferencing `NULL`. -/
theorem q_sort_split_safe (h : Heap) (q : queue_t) (addrs : List Nat) (fuel : Nat)
    (hw : well_formed h q addrs) (hsize : 2 ≤ q.size) (hfuel : addrs.length ≤ fuel + 1) :
    ∃ h1 left right h2 left1 h3 right1 h4 q2,
      q_sort_split h q = some (h1, left, right) ∧
      well_formed h1 left (addrs.take ((addrs.length + 1) / 2)) ∧
      well_formed h1 right (addrs.drop ((addrs.length + 1) / 2)) ∧
      (∀ x ∈ addrs.take ((addrs.length + 1) / 2),
        x ∉ addrs.drop ((addrs.length + 1) / 2)) ∧
      left.size = (q.size + 1) / 2 ∧ right.size = q.size / 2 ∧
      left.size + right.size = q.size ∧ 1 ≤ left.size ∧ 1 ≤ right.size ∧
      left.head ≠ none ∧ right.head ≠ none ∧
      q_sort fuel h1 (some left) = some (h2, some left1) ∧
      q_sort fuel h2 (some right) = some (h3, some right1) ∧
      left1.head ≠ none ∧ right1.head ≠ none ∧
      q_merge (fuel + 1) h3 left1 right1 { q with head := none, tail := none }
        = some (h4, q2) ∧
      q_sort (fuel + 1) h (some q) = some (h4, some q2) := by
  have hcount := hw.size_count
  have hlen : 2 ≤ addrs.length := by omega
  have hk : addrs.length / 2 + addrs.length % 2 = (addrs.length + 1) / 2 := by omega
  obtain ⟨h1, left, right, hsplit, hwl, hwr, hTD, _, _, hls, hrs, _, _⟩ :=
    q_sort_split_spec hw hlen
  rw [hk] at hwl hwr hTD
  have hTlen : (addrs.take ((addrs.length + 1) / 2)).length = (addrs.length + 1) / 2 := by
    rw [List.length_take]; omega
  have hDlen : (addrs.drop ((addrs.length + 1) / 2)).length
      = addrs.length - (addrs.length + 1) / 2 := List.length_drop _ _
  obtain ⟨h2, left1, h3, right1, h4, q2, erunl, erunr, hl1, hr1, erunm, hconq⟩ :=
    @q_sort_conquer_spec h1 q left right _ _ fuel hwl hwr hTD (by rw [hTlen]; omega)
      (by rw [hDlen]; omega) (by rw [hTlen]; omega) (by rw [hDlen]; omega)
      (by rw [hTlen, hDlen]; omega)
  refine ⟨h1, left, right, h2, left1, h3, right1, h4, q2, hsplit, hwl, hwr, hTD, ?_, hrs, ?_,
    ?_, ?_, head_ne_none_of_well_formed hwl (by rw [hTlen]; omega),
    head_ne_none_of_well_formed hwr (by rw [hDlen]; omega), erunl, erunr, hl1, hr1, erunm, ?_⟩
  · rw [hls]; omega
  · rw [hls, hrs]; omega
  · rw [hls]; omega
  · rw [hrs]; omega
  · rw [q_sort_unfold fuel h q (by omega), hsplit]
    exact hconq

/-- Witness of C18 on the queue "banana", "apple", "cherry". -/
theorem q_sort_split_safe_witness :
    well_formed fruit_h3 fruit_q3 [1, 2, 3] ∧ 2 ≤ fruit_q3.size ∧
    ∃ h1 left right h2 left1 h3 right1 h4 q2,
      q_sort_split fruit_h3 fruit_q3 = some (h1, left, right) ∧
      well_formed h1 left ([1, 2, 3].take (([1, 2, 3].length + 1) / 2)) ∧
      well_formed h1 right ([1, 2, 3].drop (([1, 2, 3].length + 1) / 2)) ∧
      (∀ x ∈ [1, 2, 3].take (([1, 2, 3].length + 1) / 2),
        x ∉ [1, 2, 3].drop (([1, 2, 3].length + 1) / 2)) ∧
      left.size = (fruit_q3.size + 1) / 2 ∧ right.size = fruit_q3.size / 2 ∧
      left.size + right.size = fruit_q3.size ∧ 1 ≤ left.size ∧ 1 ≤ right.size ∧
      left.head ≠ none ∧ right.head ≠ none ∧
      q_sort 2 h1 (some left) = some (h2, some left1) ∧
      q_sort 2 h2 (some right) = some (h3, some right1) ∧
      left1.head ≠ none ∧ right1.head ≠ none ∧
      q_merge (2 + 1) h3 left1 right1 { fruit_q3 with head := none, tail := none }
        = some (h4, q2) ∧
      q_sort (2 + 1) fruit_h3 (some fruit_q3) = some (h4, some q2) :=
  ⟨by decide, by decide,
    q_sort_split_safe fruit_h3 fruit_q3 [1, 2, 3] 2 (by decide) (by decide) (by decide)⟩

/-- C19: `q_sort` terminates on every well-formed queue: with fuel at least the number of
elements it returns a result; and when `size >= 2` it continues after the split with the two
recursive calls on well-formed sub-queues whose sizes are at least 1 and strictly smaller
than `size`, so that the recursion descends on `size`. -/
theorem q_sort_terminates (h : Heap) (q : queue_t) (addrs : List Nat) (fuel : Nat)
    (hw : well_formed h q addrs) (hfuel : addrs.length ≤ fuel) :
    (∃ h1 q1, q_sort fuel h (some q) = some (h1, some q1)) ∧
    (2 ≤ q.size → ∃ h1 left right tl tr,
      q_sort_split h q = some (h1, left, right) ∧
      q_sort fuel h (some q) = q_sort_conquer (fuel - 1) q (h1, left, right) ∧
      well_formed h1 left tl ∧ well_formed h1 right tr ∧
      1 ≤ left.size ∧ left.size < q.size ∧ 1 ≤ right.size ∧ right.size < q.size ∧
      tl.length ≤ fuel - 1 ∧ tr.length ≤ fuel - 1) := by
  constructor
  · obtain ⟨h1, q1, hrun, _⟩ := q_sort_spec fuel h q addrs hw hfuel
    exact ⟨h1, q1, hrun⟩
  · intro hsize
    have hcount := hw.size_count
    have hlen : 2 ≤ addrs.length := by omega
    obtain ⟨f, rfl⟩ : ∃ f, fuel = f + 1 := ⟨fuel - 1, by omega⟩
    obtain ⟨h1, left, right, hsplit, hwl, hwr, _, _, _, hls, hrs, _, _⟩ :=
      q_sort_split_spec hw hlen
    refine ⟨h1, left, right, _, _, hsplit, ?_, hwl, hwr, ?_, ?_, ?_, ?_, ?_, ?_⟩
    · rw [q_sort_unfold f h q (by omega), hsplit]
      rfl
    · rw [hls]; omega
    · rw [hls]; omega
    · rw [hrs]; omega
    · rw [hrs]; omega
    · rw [List.length_take]; omega
    · rw [List.length_drop]; omega

/-- Witness of C19 on the queue "banana", "apple", "cherry". -/
theorem q_sort_terminates_witness :
    well_formed fruit_h3 fruit_q3 [1, 2, 3] ∧
    (∃ h1 q1, q_sort 3 fruit_h3 (some fruit_q3) = some (h1, some q1)) ∧
    (2 ≤ fruit_q3.size → ∃ h1 left right tl tr,
      q_sort_split fruit_h3 fruit_q3 = some (h1, left, right) ∧
      q_sort 3 fruit_h3 (some fruit_q3) = q_sort_conquer (3 - 1) fruit_q3 (h1, left, right) ∧
      well_formed h1 left tl ∧ well_formed h1 right tr ∧
      1 ≤ left.size ∧ left.size < fruit_q3.size ∧
      1 ≤ right.size ∧ right.size < fruit_q3.size ∧
      tl.length ≤ 3 - 1 ∧ tr.length ≤ 3 - 1) :=
  ⟨by decide, q_sort_terminates fruit_h3 fruit_q3 [1, 2, 3] 3 (by decide) (by decide)⟩

end Queue
